/-
Verification of the RAG agent orchestration engine of this repository.

Shallow embedding of the relevant code under
`backend/src/services/rag/`:
  * `agent.py`            — scenario decision (`_choose_scenario`,
                            `_rule_guess_scenario`), reciprocal-rank-fusion
                            merge (`_rrf_merge`), the parallel branch of
                            `_run_tool_conversation`;
  * `tool_executor.py`    — `ParallelToolExecutor.execute_plan` and
                            `_execute_with_retry`;
  * `fusion_planner.py`   — `FusionPlan.expansions`, `FusionPlanner.plan`;
  * `context_manager.py`  — `TokenAwareContextManager.build_optimal_context`
                            (budget split).

Modelling conventions:
  * Python `float` scores, confidences and weights are modelled by exact
    rationals (`ℚ`); the claims under scrutiny are about the algorithms'
    order/accumulation structure, not about IEEE rounding.
  * Python dicts that the code iterates over are modelled by
    insertion-ordered association lists, matching CPython's guaranteed
    iteration order (insertion order; re-assigning an existing key keeps
    its position).
  * Calls to external collaborators (the completion model, the tool
    handlers behind `ToolRegistry.execute`) are modelled by explicit
    oracle parameters, so that one run of the embedded function
    corresponds to one run of the Python code against a fixed behaviour
    of its collaborators.
-/
import Mathlib

set_option autoImplicit false

/-! # Python string primitives

`str.lower`, `str.strip` and the substring test `needle in hay` as used by
`RagAgent._rule_guess_scenario` and `FusionPlan.expansions`.  The code and
the spec-side definitions below share these primitives, so the theorems
relating them are insensitive to the (ASCII + Cyrillic) restriction of the
character tables.
-/

/-- Characters stripped by Python's `str.strip()` (the ASCII whitespace
set; the queries and keywords in question contain no exotic Unicode
spaces). -/
def pyIsSpace (c : Char) : Bool :=
  c == ' ' || c == '\t' || c == '\n' || c == '\x0d' || c == '\x0b' || c == '\x0c'

/-- Case-folding pairs used by Python's `str.lower()`, restricted to the
alphabets that occur in the agent's keyword table: ASCII `A`–`Z` and
Cyrillic `А`–`Я`, `Ё`. -/
def lowerPairs : List (Char × Char) :=
  [('A', 'a'), ('B', 'b'), ('C', 'c'), ('D', 'd'), ('E', 'e'), ('F', 'f'),
   ('G', 'g'), ('H', 'h'), ('I', 'i'), ('J', 'j'), ('K', 'k'), ('L', 'l'),
   ('M', 'm'), ('N', 'n'), ('O', 'o'), ('P', 'p'), ('Q', 'q'), ('R', 'r'),
   ('S', 's'), ('T', 't'), ('U', 'u'), ('V', 'v'), ('W', 'w'), ('X', 'x'),
   ('Y', 'y'), ('Z', 'z'),
   ('А', 'а'), ('Б', 'б'), ('В', 'в'), ('Г', 'г'), ('Д', 'д'), ('Е', 'е'),
   ('Ж', 'ж'), ('З', 'з'), ('И', 'и'), ('Й', 'й'), ('К', 'к'), ('Л', 'л'),
   ('М', 'м'), ('Н', 'н'), ('О', 'о'), ('П', 'п'), ('Р', 'р'), ('С', 'с'),
   ('Т', 'т'), ('У', 'у'), ('Ф', 'ф'), ('Х', 'х'), ('Ц', 'ц'), ('Ч', 'ч'),
   ('Ш', 'ш'), ('Щ', 'щ'), ('Ъ', 'ъ'), ('Ы', 'ы'), ('Ь', 'ь'), ('Э', 'э'),
   ('Ю', 'ю'), ('Я', 'я'), ('Ё', 'ё')]

/-- `str.lower()` on a single character. -/
def pyLowerChar (c : Char) : Char :=
  ((lowerPairs.find? (fun p => p.1 == c)).map Prod.snd).getD c

/-- `str.lower()`. -/
def pyLower (s : String) : String :=
  ⟨s.data.map pyLowerChar⟩

/-- `str.strip()` on the underlying character list. -/
def pyStripData (l : List Char) : List Char :=
  ((l.dropWhile pyIsSpace).reverse.dropWhile pyIsSpace).reverse

/-- `str.strip()`. -/
def pyStrip (s : String) : String :=
  ⟨pyStripData s.data⟩

/-- `startsWith needle hay`: `hay` begins with `needle`. -/
def startsWith : List Char → List Char → Bool
  | [], _ => true
  | _ :: _, [] => false
  | c :: cs, d :: ds => c == d && startsWith cs ds

/-- Python's substring test `needle in hay`. -/
def hasSub (needle : List Char) : List Char → Bool
  | [] => needle.isEmpty
  | c :: t => startsWith needle (c :: t) || hasSub needle t

/-! # `RagAgent._rule_guess_scenario` (agent.py lines 342–367) -/

/-- The fixed search-intent keyword tuple of `_rule_guess_scenario`. -/
def searchKeywords : List String :=
  ["найти", "найди", "ищи", "поиск", "где", "какой договор",
   "какой документ", "покажи", "подбери"]

/-- Python truthiness of `selected_ids and len(selected_ids) > 0`
(`selected_ids` is `None` or a list). -/
def selectedNonEmpty (selectedIds : Option (List Int)) : Bool :=
  match selectedIds with
  | some l => !l.isEmpty
  | none => false

/-- `RagAgent._rule_guess_scenario`.  The `history` parameter of the
Python method is unused by its body and therefore omitted. -/
def ruleGuessScenario (query : String) (selectedIds : Option (List Int)) : Int :=
  if selectedNonEmpty selectedIds then 3
  else
    let q := pyLower query
    if searchKeywords.any (fun k => hasSub k.data q.data) then 1
    else if pyStrip q = "" then 5
    else 2

/-- The rule guess as the spec words it: selected documents → 3; else a
search-intent keyword in the lower-cased query → 1; else an empty or
whitespace-only query → 5; else 2. -/
def ruleGuessSpec (query : String) (selectedIds : Option (List Int)) : Int :=
  if selectedIds.getD [] ≠ [] then 3
  else if ∃ k ∈ searchKeywords, hasSub k.data (pyLower query).data = true then 1
  else if ∀ c ∈ query.data, pyIsSpace c = true then 5
  else 2

lemma find?_pred_of_eq_some {α : Type} {p : α → Bool} {l : List α} {a : α}
    (h : l.find? p = some a) : p a = true := by
  induction l with
  | nil => simp at h
  | cons x t ih =>
    rw [List.find?] at h
    cases hp : p x with
    | true => rw [hp] at h; simp at h; rwa [← h]
    | false => rw [hp] at h; exact ih h

lemma pyIsSpace_pyLowerChar (c : Char) : pyIsSpace (pyLowerChar c) = pyIsSpace c := by
  unfold pyLowerChar
  cases h : lowerPairs.find? (fun p => p.1 == c) with
  | none => simp
  | some p =>
    have hmem : p ∈ lowerPairs := List.mem_of_find?_eq_some h
    have hpred : (p.1 == c) = true :=
      @find?_pred_of_eq_some (Char × Char) (fun q => q.1 == c) lowerPairs p h
    have hc : p.1 = c := by simpa using hpred
    have hnp : ∀ q ∈ lowerPairs, pyIsSpace q.1 = false ∧ pyIsSpace q.2 = false := by
      decide
    have h1 := (hnp p hmem).1
    have h2 := (hnp p hmem).2
    simp [h2, ← hc, h1]

lemma pyStripData_eq_nil_iff (l : List Char) :
    pyStripData l = [] ↔ ∀ c ∈ l, pyIsSpace c = true := by
  unfold pyStripData
  constructor
  · intro h c hc
    have h' : (l.dropWhile pyIsSpace).reverse.dropWhile pyIsSpace = [] := by
      simpa using congrArg List.reverse h
    have hdrop : ∀ x ∈ (l.dropWhile pyIsSpace).reverse, pyIsSpace x = true := by
      simpa [List.dropWhile_eq_nil_iff] using h'
    have hdrop' : ∀ x ∈ l.dropWhile pyIsSpace, pyIsSpace x = true := by
      intro x hx
      exact hdrop x (by simpa using hx)
    have hl : l = l.takeWhile pyIsSpace ++ l.dropWhile pyIsSpace :=
      (List.takeWhile_append_dropWhile (p := pyIsSpace) (l := l)).symm
    rw [hl] at hc
    rcases List.mem_append.mp hc with h1 | h2
    · exact List.mem_takeWhile_imp h1
    · exact hdrop' c h2
  · intro h
    have h1 : l.dropWhile pyIsSpace = [] := by
      simpa [List.dropWhile_eq_nil_iff] using h
    simp [h1]

lemma pyStrip_pyLower_empty_iff (q : String) :
    pyStrip (pyLower q) = "" ↔ ∀ c ∈ q.data, pyIsSpace c = true := by
  have hdata : (pyStrip (pyLower q)).data = pyStripData (q.data.map pyLowerChar) := rfl
  constructor
  · intro h c hc
    have h0 : pyStripData (q.data.map pyLowerChar) = [] := by
      rw [← hdata, h]
    have h1 := (pyStripData_eq_nil_iff _).mp h0
    have h2 := h1 (pyLowerChar c) (List.mem_map_of_mem pyLowerChar hc)
    rwa [pyIsSpace_pyLowerChar] at h2
  · intro h
    have h1 : ∀ c ∈ q.data.map pyLowerChar, pyIsSpace c = true := by
      intro c hc
      rcases List.mem_map.mp hc with ⟨d, hd, rfl⟩
      rw [pyIsSpace_pyLowerChar]
      exact h d hd
    have h0 : pyStripData (q.data.map pyLowerChar) = [] :=
      (pyStripData_eq_nil_iff _).mpr h1
    apply String.ext
    rw [hdata, h0]

/-- C9: the rule-based scenario guess is exactly the total function the
spec describes: selected documents → 3 regardless of the query; else a
search-intent keyword in the lower-cased query → 1; else an empty or
whitespace-only query → 5; else 2. -/
theorem ruleGuessScenario_eq_spec (query : String) (selectedIds : Option (List Int)) :
    ruleGuessScenario query selectedIds = ruleGuessSpec query selectedIds := by
  by_cases h1 : selectedIds.getD [] ≠ []
  · have b1 : selectedNonEmpty selectedIds = true := by
      cases selectedIds with
      | none => simp at h1
      | some l => cases l with
        | nil => simp at h1
        | cons a t => simp [selectedNonEmpty]
    simp [ruleGuessScenario, ruleGuessSpec, h1, b1]
  · have b1 : selectedNonEmpty selectedIds = false := by
      cases selectedIds with
      | none => rfl
      | some l =>
        have : l = [] := by simpa using h1
        simp [selectedNonEmpty, this]
    by_cases h2 : ∃ k ∈ searchKeywords, hasSub k.data (pyLower query).data = true
    · have b2 : (searchKeywords.any fun k => hasSub k.data (pyLower query).data) = true := by
        simpa [List.any_eq_true] using h2
      simp [ruleGuessScenario, ruleGuessSpec, h1, b1, h2, b2]
    · have b2 : (searchKeywords.any fun k => hasSub k.data (pyLower query).data) = false := by
        rw [Bool.eq_false_iff]
        intro hc
        exact h2 (by simpa [List.any_eq_true] using hc)
      by_cases h3 : ∀ c ∈ query.data, pyIsSpace c = true
      · have s3 : pyStrip (pyLower query) = "" :=
          (pyStrip_pyLower_empty_iff query).mpr h3
        simp [ruleGuessScenario, ruleGuessSpec, h1, b1, h2, b2, s3]
        rw [if_pos h3]
      · have s3 : ¬ pyStrip (pyLower query) = "" := fun hh =>
          h3 ((pyStrip_pyLower_empty_iff query).mp hh)
        simp [ruleGuessScenario, ruleGuessSpec, h1, b1, h2, b2, s3]
        rw [if_neg h3]

/-! # `FusionPlanner` (fusion_planner.py)

`FusionPlanner.plan` makes one completion call and parses its JSON
content; the parse outcome is passed in as an explicit parameter:
`none` models a `json.JSONDecodeError` (the code then proceeds with
`data = {}`, i.e. every `data.get(...)` is `None`), `some d` models a
successfully decoded object.  Fields of the decoded object that feed
`_ensure_list` are modelled by `PyVal`; the remaining fields (`notes`,
`rerank`, `direct_answer_hint`) do not feed `expansions` and are carried
already converted. -/

/-- A decoded JSON value as seen by `_ensure_list`: `None`, a string, a
list (elements already rendered by Python's `str`), or anything else. -/
inductive PyVal where
  | pynone
  | pystr (s : String)
  | pylist (items : List String)
  | pyother
deriving DecidableEq

/-- `fusion_planner._ensure_list`. -/
def ensureList : PyVal → List String
  | .pylist items => (items.map pyStrip).filter (fun s => s ≠ "")
  | .pystr s => if pyStrip s ≠ "" then [pyStrip s] else []
  | _ => []

/-- The fields `FusionPlanner.plan` reads off the decoded JSON object. -/
structure PlanData where
  refinements : PyVal
  subqueries : PyVal
  notes : String
  rerank : Bool
  directAnswerHint : Option String
deriving DecidableEq

/-- `fusion_planner.FusionPlan` (dataclass). -/
structure FusionPlan where
  baseQuery : String
  refinements : List String
  subqueries : List String
  priorityNotes : String
  rerank : Bool
  directAnswerHint : Option String
deriving DecidableEq

/-- One iteration of the loop in the `expansions` property: append the
stripped item iff the raw item is truthy, strips to something truthy,
and the raw item is not already in the accumulator. -/
def expansionsStep (uniq : List String) (item : String) : List String :=
  if item ≠ "" ∧ pyStrip item ≠ "" ∧ item ∉ uniq then uniq ++ [pyStrip item]
  else uniq

/-- `FusionPlan.expansions` (fusion_planner.py lines 21–27). -/
def FusionPlan.expansions (p : FusionPlan) : List String :=
  (p.baseQuery :: (p.refinements ++ p.subqueries)).foldl expansionsStep []

/-- `FusionPlanner.plan` after the completion call: build the plan from
the query and the parse outcome of the model's content.  A missing or
malformed response gives `data = {}`, hence `None` for every field. -/
def planFromResponse (query : String) (parsed : Option PlanData) : FusionPlan :=
  let data := parsed.getD ⟨.pynone, .pynone, "", true, none⟩
  { baseQuery := query
    refinements := ensureList data.refinements
    subqueries := ensureList data.subqueries
    priorityNotes := data.notes
    rerank := data.rerank
    directAnswerHint := data.directAnswerHint }

lemma foldl_expansionsStep_prefix (l : List String) (acc : List String) :
    ∃ t, l.foldl expansionsStep acc = acc ++ t := by
  induction l generalizing acc with
  | nil => exact ⟨[], by simp⟩
  | cons x xs ih =>
    rw [List.foldl_cons]
    by_cases hx : x ≠ "" ∧ pyStrip x ≠ "" ∧ x ∉ acc
    · have hstep : expansionsStep acc x = acc ++ [pyStrip x] := by
        unfold expansionsStep
        rw [if_pos hx]
      rw [hstep]
      rcases ih (acc ++ [pyStrip x]) with ⟨t, ht⟩
      exact ⟨[pyStrip x] ++ t, by rw [ht, List.append_assoc]⟩
    · have hstep : expansionsStep acc x = acc := by
        unfold expansionsStep
        rw [if_neg hx]
      rw [hstep]
      exact ih acc

/-- C4 (counterexample): a Fusion Plan produced by the planner from an
empty base query and a malformed (unparseable) completion response has
an **empty** `expansions` list — it does not fall back to
`[base_query]`.  (The retrieval caller guards this case separately with
`if not expansions:` at agent.py line 842.) -/
theorem expansions_empty_counterexample :
    (planFromResponse "" none).expansions = [] := by
  decide

/-- C4 (amended): for every Fusion Plan produced by the planner whose
base query contains a non-whitespace character, the derived expansions
list is non-empty, and when the completion response is empty or
malformed (so refinements and subqueries are empty) it equals
`[base_query.strip()]`; only a blank base query can make `expansions`
empty. -/
theorem expansions_ne_nil_of_query_nonblank (query : String) (parsed : Option PlanData)
    (h : pyStrip query ≠ "") :
    (planFromResponse query parsed).expansions ≠ [] ∧
      (parsed = none → (planFromResponse query parsed).expansions = [pyStrip query]) := by
  have hq : query ≠ "" := by
    intro h0
    exact h (by rw [h0]; rfl)
  constructor
  · unfold FusionPlan.expansions
    rw [List.foldl_cons]
    have hstep : expansionsStep [] (planFromResponse query parsed).baseQuery
        = [pyStrip query] := by
      unfold expansionsStep planFromResponse
      simp [hq, h]
    rw [hstep]
    rcases foldl_expansionsStep_prefix
      ((planFromResponse query parsed).refinements ++
        (planFromResponse query parsed).subqueries) [pyStrip query] with ⟨t, ht⟩
    rw [ht]
    simp
  · intro hp
    subst hp
    unfold FusionPlan.expansions planFromResponse
    simp [ensureList, expansionsStep, hq, h]

/-! # `RagAgent._choose_scenario` (agent.py lines 261–340)

The completion call `self._chat.chat(...)` at line 298 happens *outside*
the `try:` block (lines 303–339); only the subsequent response handling
is guarded.  The chat outcome is therefore modelled as either a
transport error (the exception propagates out of `_choose_scenario`) or
a received response together with the outcome of the guarded handling:
`none` when anything inside the `try` raises (missing key, malformed
JSON, an `int`/`float`/iteration conversion failure — the code then
builds the rule fallback), `some p` when every conversion succeeded.
-/

/-- The values the guarded block extracts from the parsed JSON object,
with `none` for an absent key (the code supplies defaults: scenario 3,
confidence 0.5). -/
structure OrchParsed where
  scenario : Option Int
  confidence : Option ℚ
  reason : String
  followUp : Bool
  clarifications : List String
  useQueryExpansion : Option Bool
  intent : Option String
deriving DecidableEq

/-- Outcome of the completion call made by `_choose_scenario`. -/
inductive ChatOutcome where
  | transportError
  | ok (parsed : Option OrchParsed)
deriving DecidableEq

/-- `agent.ScenarioDecision` (dataclass). -/
structure ScenarioDecision where
  scenario : Int
  confidence : ℚ
  reason : String
  followUp : Bool
  clarifications : List String
  useQueryExpansion : Option Bool
  ruleGuess : Int
  rawResponse : Option OrchParsed
  intent : Option String
deriving DecidableEq

/-- `RagAgent._choose_scenario`.  `Except.error` models an exception
propagating out of the method (only the unguarded transport call can
cause that); the `history` argument only shapes the prompt sent to the
model and is absorbed into the `chat` oracle. -/
def chooseScenario (query : String) (selectedIds : Option (List Int))
    (chat : ChatOutcome) (threshold : ℚ) (clarificationsLimit : Nat) :
    Except Unit ScenarioDecision :=
  match chat with
  | .transportError => .error ()
  | .ok none =>
      .ok { scenario := ruleGuessScenario query selectedIds, confidence := 0,
            reason := "rule fallback", followUp := false, clarifications := [],
            useQueryExpansion := none,
            ruleGuess := ruleGuessScenario query selectedIds,
            rawResponse := none, intent := none }
  | .ok (some p) =>
      -- llm_scenario = int(parsed.get("scenario", 3)); confidence =
      -- float(parsed.get("confidence", 0.5)); the scenario is the model's
      -- iff confidence ≥ threshold, else the rule guess.
      .ok { scenario := if threshold ≤ p.confidence.getD (1/2) then p.scenario.getD 3
                        else ruleGuessScenario query selectedIds,
            confidence := p.confidence.getD (1/2), reason := p.reason,
            followUp := p.followUp,
            clarifications := p.clarifications.take clarificationsLimit,
            useQueryExpansion := p.useQueryExpansion,
            ruleGuess := ruleGuessScenario query selectedIds,
            rawResponse := some p, intent := p.intent }

/-- C1 (counterexample): the scenario decision operation is *not*
exception-free and does *not* always return a scenario in {1..5}: a
transport error in the completion call propagates (it is raised outside
the `try` block), and a well-formed response claiming scenario 7 with
confidence 1.0 ≥ threshold 0.5 makes `_choose_scenario` return
scenario 7. -/
theorem chooseScenario_counterexample :
    chooseScenario "q" none ChatOutcome.transportError (1/2) 5 = Except.error () ∧
    chooseScenario "q" none
        (ChatOutcome.ok (some ⟨some 7, some 1, "", false, [], none, none⟩)) (1/2) 5 =
      Except.ok ⟨7, 1, "", false, [], none, 2, some ⟨some 7, some 1, "", false, [], none, none⟩, none⟩ ∧
    ¬ ((7 : Int) = 1 ∨ (7 : Int) = 2 ∨ (7 : Int) = 3 ∨ (7 : Int) = 4 ∨ (7 : Int) = 5) := by
  have hrg : ruleGuessScenario "q" none = 2 := by decide
  refine ⟨rfl, ?_, by decide⟩
  simp only [chooseScenario, hrg, Option.getD_some]
  norm_num

/-- C1 (amended): once a completion response is received,
`_choose_scenario` never raises; on any failure while handling the
response it returns the deterministic rule fallback
{scenario: rule_guess, confidence: 0, follow_up: false,
clarifications: []}; the rule guess always lies in {1,2,3,5} ⊆ {1..5};
and whenever the model's confidence is below the threshold the returned
scenario is the rule guess (in particular in {1..5}).  Only a transport
error in the completion call itself escapes, and only a high-confidence
model response can carry the scenario outside {1..5}. -/
theorem chooseScenario_amended (query : String) (selectedIds : Option (List Int))
    (p : OrchParsed) (threshold : ℚ) (lim : Nat) :
    (∀ parsed : Option OrchParsed,
        ∃ d, chooseScenario query selectedIds (.ok parsed) threshold lim = Except.ok d) ∧
    chooseScenario query selectedIds (.ok none) threshold lim =
      Except.ok ⟨ruleGuessScenario query selectedIds, 0, "rule fallback", false, [],
        none, ruleGuessScenario query selectedIds, none, none⟩ ∧
    (ruleGuessScenario query selectedIds = 1 ∨ ruleGuessScenario query selectedIds = 2 ∨
      ruleGuessScenario query selectedIds = 3 ∨ ruleGuessScenario query selectedIds = 5) ∧
    (¬ threshold ≤ p.confidence.getD (1/2) →
      chooseScenario query selectedIds (.ok (some p)) threshold lim =
        Except.ok ⟨ruleGuessScenario query selectedIds, p.confidence.getD (1/2), p.reason,
          p.followUp, p.clarifications.take lim, p.useQueryExpansion,
          ruleGuessScenario query selectedIds, some p, p.intent⟩) := by
  refine ⟨?_, rfl, ?_, ?_⟩
  · intro parsed
    cases parsed with
    | none => exact ⟨_, rfl⟩
    | some q => exact ⟨_, rfl⟩
  · unfold ruleGuessScenario
    by_cases h1 : selectedNonEmpty selectedIds = true
    · simp [h1]
    · by_cases h2 : (searchKeywords.any fun k => hasSub k.data (pyLower query).data) = true
      · simp [h1, h2]
      · by_cases h3 : pyStrip (pyLower query) = ""
        · simp [h1, h2, h3]
        · simp [h1, h2, h3]
  · intro hconf
    simp only [chooseScenario]
    rw [if_neg hconf]

/-- Witness for `chooseScenario_amended`: a concrete low-confidence
response (confidence 0 < threshold 1) on the query "hello" falls back
to the rule guess 2. -/
theorem chooseScenario_amended_witness :
    (¬ (1 : ℚ) ≤ ((⟨some 4, some 0, "", false, [], none, none⟩ : OrchParsed)).confidence.getD (1/2)) ∧
    ruleGuessScenario "hello" none = 2 ∧
    chooseScenario "hello" none
        (.ok (some ⟨some 4, some 0, "", false, [], none, none⟩)) 1 3 =
      Except.ok ⟨ruleGuessScenario "hello" none, ((⟨some 4, some 0, "", false, [], none, none⟩ : OrchParsed)).confidence.getD (1/2), "",
        false, [], none, ruleGuessScenario "hello" none,
        some ⟨some 4, some 0, "", false, [], none, none⟩, none⟩ :=
  ⟨by norm_num, by decide,
    (chooseScenario_amended "hello" none ⟨some 4, some 0, "", false, [], none, none⟩
      1 3).2.2.2 (by norm_num)⟩

/-- Witness for `expansions_ne_nil_of_query_nonblank`: the query
"штрафы" with a malformed planner response yields expansions
["штрафы"]. -/
theorem expansions_ne_nil_witness :
    pyStrip "штрафы" ≠ "" ∧
    ((planFromResponse "штрафы" none).expansions ≠ [] ∧
      ((none : Option PlanData) = none →
        (planFromResponse "штрафы" none).expansions = [pyStrip "штрафы"])) :=
  ⟨by decide, expansions_ne_nil_of_query_nonblank "штрафы" none (by decide)⟩

/-! # `TokenAwareContextManager.build_optimal_context` (context_manager.py)

Only the budget computation (lines 188–199) is in question: the fixed
cost of system prompt, guidance and user query is subtracted from the
available budget (clamped at 0) and the rest is split between evidence
chunks and history by `chunk_weight`.  `chars_per_token` is fixed at 4.0
by the constructor, so `int(len(text) / 4.0)` is exactly `len(text) / 4`
in integer division (a float division by a power of two is exact below
2^53). -/

/-- Python `int()` on a rational: truncation toward zero. -/
def pyInt (q : ℚ) : Int :=
  if q < 0 then -⌊-q⌋ else ⌊q⌋

/-- `TokenAwareContextManager.estimate_tokens`. -/
def estimateTokens (text : String) : Nat :=
  if text = "" then 0 else text.length / 4

/-- `self._available` as computed in the constructor:
`max_tokens - reserved_for_output - reserved_for_system`. -/
def contextAvailable (maxTokens reservedOutput reservedSystem : Int) : Int :=
  maxTokens - reservedOutput - reservedSystem

/-- The budget fields of the `stats` record of `build_optimal_context`. -/
structure BudgetStats where
  baseTokens : Nat
  remaining : Int
  chunkBudget : Int
  historyBudget : Int
deriving DecidableEq

/-- The budget computation of `build_optimal_context` (lines 188–199):
`base_tokens = system + guidance + (query + 4)` estimated tokens,
`remaining = max(0, available - base_tokens)`,
`chunk_budget = int(remaining * chunk_weight)`,
`history_budget = int(remaining * (1.0 - chunk_weight))`. -/
def budgetSplit (available : Int) (systemPrompt guidance userQuery : String)
    (chunkWeight : ℚ) : BudgetStats :=
  { baseTokens := estimateTokens systemPrompt + estimateTokens guidance +
      (estimateTokens userQuery + 4)
    remaining := max 0 (available - (estimateTokens systemPrompt +
      estimateTokens guidance + (estimateTokens userQuery + 4) : Nat))
    chunkBudget := pyInt ((max 0 (available - (estimateTokens systemPrompt +
      estimateTokens guidance + (estimateTokens userQuery + 4) : Nat)) : Int) * chunkWeight)
    historyBudget := pyInt ((max 0 (available - (estimateTokens systemPrompt +
      estimateTokens guidance + (estimateTokens userQuery + 4) : Nat)) : Int) * (1 - chunkWeight)) }

lemma pyInt_eq_floor_of_nonneg (q : ℚ) (h : 0 ≤ q) : pyInt q = ⌊q⌋ := by
  unfold pyInt
  rw [if_neg (not_lt.mpr h)]

lemma estimateTokens_replicate (n : Nat) (c : Char) (hn : n ≠ 0) :
    estimateTokens (String.mk (List.replicate n c)) = n / 4 := by
  unfold estimateTokens
  have hne : String.mk (List.replicate n c) ≠ "" := by
    intro h
    have : List.replicate n c = ([] : List Char) := congrArg String.data h
    exact hn (by simpa using congrArg List.length this)
  rw [if_neg hne]
  show (List.replicate n c).length / 4 = n / 4
  rw [List.length_replicate]

/-- C8: the evidence/history budget split.  In general the two budgets
are `remaining * w` and `remaining * (1 - w)` up to the integer
truncation of `int()` (each within 1 of the exact product), where
`remaining` is the available budget minus the fixed
system+guidance+query cost clamped at 0; in particular with
`available = 5000`, a fixed cost of exactly 1000 tokens and weight 0.4
the split is `chunk_budget = 1600`, `history_budget = 2400`. -/
theorem budgetSplit_spec (available : Int) (s g u : String) (w : ℚ)
    (h0 : 0 ≤ w) (h1 : w ≤ 1) :
    (((budgetSplit available s g u w).chunkBudget : ℚ) ≤
        ((budgetSplit available s g u w).remaining : ℚ) * w ∧
      ((budgetSplit available s g u w).remaining : ℚ) * w - 1 <
        ((budgetSplit available s g u w).chunkBudget : ℚ)) ∧
    (((budgetSplit available s g u w).historyBudget : ℚ) ≤
        ((budgetSplit available s g u w).remaining : ℚ) * (1 - w) ∧
      ((budgetSplit available s g u w).remaining : ℚ) * (1 - w) - 1 <
        ((budgetSplit available s g u w).historyBudget : ℚ)) ∧
    (budgetSplit available s g u w).remaining =
      max 0 (available - (budgetSplit available s g u w).baseTokens) ∧
    budgetSplit 5000 (String.mk (List.replicate 1600 'a'))
        (String.mk (List.replicate 1184 'b'))
        (String.mk (List.replicate 1200 'c')) (2/5) =
      ⟨1000, 4000, 1600, 2400⟩ := by
  have hrem : (0 : ℚ) ≤ ((budgetSplit available s g u w).remaining : ℚ) := by
    have : (0 : Int) ≤ (budgetSplit available s g u w).remaining := le_max_left _ _
    exact_mod_cast this
  have hcw : (budgetSplit available s g u w).chunkBudget =
      ⌊((budgetSplit available s g u w).remaining : ℚ) * w⌋ :=
    pyInt_eq_floor_of_nonneg _ (mul_nonneg hrem h0)
  have hhw : (budgetSplit available s g u w).historyBudget =
      ⌊((budgetSplit available s g u w).remaining : ℚ) * (1 - w)⌋ :=
    pyInt_eq_floor_of_nonneg _ (mul_nonneg hrem (by linarith))
  refine ⟨⟨?_, ?_⟩, ⟨?_, ?_⟩, rfl, ?_⟩
  · rw [hcw]; exact Int.floor_le _
  · rw [hcw]; exact Int.sub_one_lt_floor _
  · rw [hhw]; exact Int.floor_le _
  · rw [hhw]; exact Int.sub_one_lt_floor _
  · have e1 := estimateTokens_replicate 1600 'a' (by norm_num)
    have e2 := estimateTokens_replicate 1184 'b' (by norm_num)
    have e3 := estimateTokens_replicate 1200 'c' (by norm_num)
    unfold budgetSplit
    rw [e1, e2, e3]
    norm_num [pyInt]

/-- Witness for `budgetSplit_spec` at weight 0.4 on the 1000-token
fixed-cost instance. -/
theorem budgetSplit_spec_witness :
    (0 : ℚ) ≤ 2/5 ∧ (2/5 : ℚ) ≤ 1 ∧
    budgetSplit 5000 (String.mk (List.replicate 1600 'a'))
        (String.mk (List.replicate 1184 'b'))
        (String.mk (List.replicate 1200 'c')) (2/5) =
      ⟨1000, 4000, 1600, 2400⟩ :=
  ⟨by norm_num, by norm_num,
    (budgetSplit_spec 5000 (String.mk (List.replicate 1600 'a'))
      (String.mk (List.replicate 1184 'b'))
      (String.mk (List.replicate 1200 'c')) (2/5)
      (by norm_num) (by norm_num)).2.2.2⟩

/-! # `ParallelToolExecutor` (tool_executor.py)

`execute_plan` keys its `pending` dict and its returned dict by
`tool_name`; a CPython dict keeps the position of the first insertion of
a key and the value of the last assignment, which `pendingOf` mirrors.
`ToolRegistry.execute` is modelled by a handler oracle mapping
`(tool_name, arguments_json, zero-based attempt index)` to the call's
outcome, so retries that observe different outcomes are expressible.
Within one wave the Python code runs the ready tools concurrently and
then attaches results in task-creation order (= `pending` order); the
trace below lists the handler invocations in that same order, attempt
indices being per tool. -/

/-- `tool_registry.ToolResult`; the structured `content` payload is
abstracted to an opaque string, `used_chunks` to a list of ids. -/
structure ToolResult where
  content : String
  usedChunks : List Int
deriving DecidableEq

/-- Behaviour of `ToolRegistry.execute` for a given tool/arguments on a
given (zero-based) attempt: a result, or a raised exception rendered by
`str(exc)`. -/
def Handler : Type :=
  String → String → Nat → Except String ToolResult

/-- `tool_executor.ToolExecution` (the fields that drive scheduling;
`result`/`error`/`duration_ms` are outputs, reported in `PlanResult`). -/
structure ToolExecution where
  toolName : String
  argumentsJson : String
  dependsOn : List String
deriving DecidableEq

/-- Outcome of `_execute_with_retry`: the returned result or the
re-raised last error, the backoff delays slept (in seconds), and the
attempt indices at which the handler was invoked. -/
structure RetryOutcome where
  result : Except String ToolResult
  delays : List Nat
  calls : List Nat

/-- The retry loop of `_execute_with_retry`: attempts run at indices
`attempt, attempt+1, ...`; after a failure with retries remaining the
code sleeps `2 ** attempt` seconds; with none remaining it re-raises the
last error. -/
def retryGo (h : Handler) (name args : String) (attempt : Nat) : Nat → RetryOutcome
  | 0 =>
    match h name args attempt with
    | .ok r => ⟨.ok r, [], [attempt]⟩
    | .error e => ⟨.error e, [], [attempt]⟩
  | remaining + 1 =>
    match h name args attempt with
    | .ok r => ⟨.ok r, [], [attempt]⟩
    | .error _ =>
      let rest := retryGo h name args (attempt + 1) remaining
      ⟨rest.result, 2 ^ attempt :: rest.delays, attempt :: rest.calls⟩

/-- `ParallelToolExecutor._execute_with_retry` (lines 117–176):
`for attempt in range(max_retries + 1)`. -/
def executeWithRetry (h : Handler) (name args : String) (maxRetries : Nat) :
    RetryOutcome :=
  retryGo h name args 0 maxRetries

lemma retryGo_shape (h : Handler) (name args : String) :
    ∀ (remaining attempt : Nat), ∃ m, 1 ≤ m ∧ m ≤ remaining + 1 ∧
      (retryGo h name args attempt remaining).calls = List.range' attempt m ∧
      (retryGo h name args attempt remaining).delays =
        (List.range' attempt (m - 1)).map (fun i => 2 ^ i) := by
  intro remaining
  induction remaining with
  | zero =>
    intro attempt
    refine ⟨1, le_refl 1, le_refl 1, ?_, ?_⟩ <;>
      · unfold retryGo
        cases h name args attempt <;> simp [List.range']
  | succ rem ih =>
    intro attempt
    cases hh : h name args attempt with
    | ok r =>
      refine ⟨1, le_refl 1, by omega, ?_, ?_⟩ <;> simp [retryGo, hh, List.range']
    | error e =>
      rcases ih (attempt + 1) with ⟨m, hm1, hm2, hcalls, hdelays⟩
      refine ⟨m + 1, by omega, by omega, ?_, ?_⟩
      · simp only [retryGo, hh]
        rw [List.range'_succ, hcalls]
      · simp only [retryGo, hh, Nat.add_sub_cancel]
        obtain ⟨k, rfl⟩ : ∃ k, m = k + 1 := ⟨m - 1, by omega⟩
        rw [List.range'_succ, List.map_cons]
        simp only [Nat.add_sub_cancel] at hdelays
        rw [hdelays]

lemma retryGo_error_calls (h : Handler) (name args : String) :
    ∀ (remaining attempt : Nat) (e : String),
      (retryGo h name args attempt remaining).result = .error e →
      (retryGo h name args attempt remaining).calls.length = remaining + 1 := by
  intro remaining
  induction remaining with
  | zero =>
    intro attempt e hres
    unfold retryGo
    cases h name args attempt <;> simp
  | succ rem ih =>
    intro attempt e hres
    unfold retryGo at hres ⊢
    cases hh : h name args attempt with
    | ok r => rw [hh] at hres; simp at hres
    | error e2 =>
      rw [hh] at hres
      simp at hres ⊢
      exact ih (attempt + 1) e hres

/-- C6: under the retry policy the handler is attempted at most
`max_retries + 1` times, at consecutive attempt indices starting from 0
(so no backoff precedes the first attempt), and the backoff delays are
exactly `2 ^ attempt` for every failed attempt except the last one
made; in particular a tool failing on attempts 0 and 1 and succeeding
on attempt 2 with `max_retries = 2` returns success with exactly the
two strictly increasing delays 1 and 2. -/
theorem executeWithRetry_spec (h : Handler) (name args : String) (maxRetries : Nat)
    (r : ToolResult) (e : String) :
    (executeWithRetry h name args maxRetries).calls.length ≤ maxRetries + 1 ∧
    (executeWithRetry h name args maxRetries).calls =
      List.range (executeWithRetry h name args maxRetries).calls.length ∧
    (executeWithRetry h name args maxRetries).delays =
      (List.range ((executeWithRetry h name args maxRetries).calls.length - 1)).map
        (fun i => 2 ^ i) ∧
    executeWithRetry (fun _ _ a => if a < 2 then .error e else .ok r) name args 2 =
      ⟨.ok r, [1, 2], [0, 1, 2]⟩ := by
  rcases retryGo_shape h name args maxRetries 0 with ⟨m, hm1, hm2, hcalls, hdelays⟩
  have hlen : (executeWithRetry h name args maxRetries).calls.length = m := by
    rw [executeWithRetry, hcalls, List.length_range']
  refine ⟨?_, ?_, ?_, ?_⟩
  · rw [hlen]; exact hm2
  · rw [hlen, executeWithRetry, hcalls, List.range_eq_range']
  · rw [hlen, executeWithRetry, hdelays, List.range_eq_range']
  · rfl

/-- One CPython dict assignment `pending[ex.tool_name] = ex`: an
existing key keeps its position but takes the new value; a new key is
appended. -/
def upsertExecution (acc : List ToolExecution) (ex : ToolExecution) : List ToolExecution :=
  if acc.any (fun e => e.toolName == ex.toolName) then
    acc.map (fun e => if e.toolName == ex.toolName then ex else e)
  else acc ++ [ex]

/-- `pending = {ex.tool_name: ex for ex in executions}` (line 51). -/
def pendingOf (executions : List ToolExecution) : List ToolExecution :=
  executions.foldl upsertExecution []

/-- `all(dep in completed for dep in ex.depends_on)` (line 58). -/
def isReady (completed : List String) (ex : ToolExecution) : Bool :=
  ex.dependsOn.all (fun d => completed.contains d)

/-- Outcome of `execute_plan`: the `tool_name -> ToolResult` dict, the
per-tool errors recorded on the `ToolExecution` objects, and the trace
of handler invocations `(tool_name, arguments_json, attempt)`; or the
`RuntimeError("Circular dependency ...")` carrying the remaining tool
names. -/
inductive PlanResult where
  | ok (results : List (String × ToolResult)) (errors : List (String × String))
      (trace : List (String × String × Nat))
  | circular (remaining : List String) (trace : List (String × String × Nat))
deriving DecidableEq

/-- One wave (lines 80–113): run every ready execution with retry and
fold successes into `results`, failures into the recorded errors, in
task-creation order. -/
def runWave (h : Handler) (maxRetries : Nat) :
    List ToolExecution →
      List (String × ToolResult) × List (String × String) ×
        List (String × String × Nat)
  | [] => ([], [], [])
  | ex :: rest =>
    let r := executeWithRetry h ex.toolName ex.argumentsJson maxRetries
    let out := runWave h maxRetries rest
    match r.result with
    | .ok v =>
        ((ex.toolName, v) :: out.1, out.2.1,
          r.calls.map (fun a => (ex.toolName, ex.argumentsJson, a)) ++ out.2.2)
    | .error e =>
        (out.1, (ex.toolName, e) :: out.2.1,
          r.calls.map (fun a => (ex.toolName, ex.argumentsJson, a)) ++ out.2.2)

lemma length_filter_not_lt {α : Type} (p : α → Bool) :
    ∀ l : List α, l.filter p ≠ [] → (l.filter (fun x => !p x)).length < l.length := by
  intro l
  induction l with
  | nil => intro h; simp at h
  | cons x t ih =>
    intro h
    cases hp : p x with
    | true =>
      have hle : (t.filter (fun y => !p y)).length ≤ t.length :=
        List.length_filter_le _ t
      simp only [List.filter_cons, hp, Bool.not_true, List.length_cons]
      simpa using Nat.lt_succ_of_le hle
    | false =>
      have h' : t.filter p ≠ [] := by
        intro hc
        exact h (by simp [List.filter_cons, hp, hc])
      have ht := ih h'
      simp only [List.filter_cons, hp, Bool.not_false, List.length_cons]
      simpa using Nat.succ_lt_succ ht

/-- The `while pending:` loop of `execute_plan` (lines 53–113),
embedded with a fuel argument so the recursion is structural: every
executed wave removes at least one pending execution
(`length_filter_not_lt`), so fuel `pending.length` always suffices and
the fuel-0 non-empty branch (which mirrors the stuck loop by reporting
the circular-dependency error) is unreachable from `executePlan`. -/
def planGo (h : Handler) (maxRetries : Nat) :
    Nat → List ToolExecution → List String → List (String × ToolResult) →
      List (String × String) → List (String × String × Nat) → PlanResult
  | 0, pending, _, accResults, accErrors, accTrace =>
    if pending = [] then .ok accResults accErrors accTrace
    else .circular (pending.map (fun ex => ex.toolName)) accTrace
  | fuel + 1, pending, completed, accResults, accErrors, accTrace =>
    if pending = [] then .ok accResults accErrors accTrace
    else
      if pending.filter (isReady completed) = [] then
        .circular (pending.map (fun ex => ex.toolName)) accTrace
      else
        planGo h maxRetries fuel (pending.filter (fun ex => !isReady completed ex))
          (completed ++ (pending.filter (isReady completed)).map (fun ex => ex.toolName))
          (accResults ++ (runWave h maxRetries (pending.filter (isReady completed))).1)
          (accErrors ++ (runWave h maxRetries (pending.filter (isReady completed))).2.1)
          (accTrace ++ (runWave h maxRetries (pending.filter (isReady completed))).2.2)

/-- `ParallelToolExecutor.execute_plan` (lines 36–115). -/
def executePlan (h : Handler) (maxRetries : Nat)
    (executions : List ToolExecution) : PlanResult :=
  if executions.isEmpty then .ok [] [] []
  else planGo h maxRetries (pendingOf executions).length (pendingOf executions) [] [] [] []

lemma upsertExecution_ne_nil (acc : List ToolExecution) (ex : ToolExecution) :
    upsertExecution acc ex ≠ [] := by
  unfold upsertExecution
  cases acc with
  | nil => simp
  | cons a t => split <;> simp

lemma foldl_upsertExecution_ne_nil (l : List ToolExecution) :
    ∀ acc, acc ≠ [] → l.foldl upsertExecution acc ≠ [] := by
  induction l with
  | nil => intro acc h; simpa using h
  | cons x t ih =>
    intro acc _
    rw [List.foldl_cons]
    exact ih _ (upsertExecution_ne_nil acc x)

lemma pendingOf_ne_nil {exs : List ToolExecution} (h : exs ≠ []) :
    pendingOf exs ≠ [] := by
  cases exs with
  | nil => exact absurd rfl h
  | cons x t =>
    unfold pendingOf
    rw [List.foldl_cons]
    exact foldl_upsertExecution_ne_nil t _ (upsertExecution_ne_nil [] x)

lemma mem_upsertExecution {acc : List ToolExecution} {ex e : ToolExecution}
    (h : e ∈ upsertExecution acc ex) : e ∈ acc ∨ e = ex := by
  unfold upsertExecution at h
  split at h
  · rcases List.mem_map.mp h with ⟨a, ha, hae⟩
    by_cases hc : (a.toolName == ex.toolName) = true
    · rw [if_pos hc] at hae; exact Or.inr hae.symm
    · rw [if_neg hc] at hae; exact Or.inl (hae ▸ ha)
  · rcases List.mem_append.mp h with h1 | h1
    · exact Or.inl h1
    · exact Or.inr (by simpa using h1)

lemma mem_pendingOf {exs : List ToolExecution} {e : ToolExecution}
    (h : e ∈ pendingOf exs) : e ∈ exs := by
  suffices hgen : ∀ (l acc : List ToolExecution), (∀ x ∈ acc, x ∈ exs) →
      (∀ x ∈ l, x ∈ exs) → ∀ x ∈ l.foldl upsertExecution acc, x ∈ exs by
    exact hgen exs [] (by simp) (fun x hx => hx) e h
  intro l
  induction l with
  | nil => intro acc hacc _ x hx; exact hacc x (by simpa using hx)
  | cons y t ih =>
    intro acc hacc hl x hx
    rw [List.foldl_cons] at hx
    refine ih (upsertExecution acc y) ?_ (fun z hz => hl z (List.mem_cons_of_mem y hz)) x hx
    intro z hz
    rcases mem_upsertExecution hz with h1 | h1
    · exact hacc z h1
    · exact h1 ▸ hl y (List.mem_cons_self y t)

/-- C5: a batch in which every execution declares at least one
dependency (in particular the 3-cycle A→B→C→A) makes `execute_plan`
raise the circular-dependency error before any tool is executed (empty
trace); and in general any wave with no ready executions while the
pending set is non-empty fails with that error, keeping the trace
accumulated so far. -/
theorem executePlan_circular (h : Handler) (m : Nat) (exs : List ToolExecution)
    (hne : exs ≠ []) (hdep : ∀ ex ∈ exs, ex.dependsOn ≠ []) :
    executePlan h m exs =
      .circular ((pendingOf exs).map (fun ex => ex.toolName)) [] ∧
    (∀ (fuel : Nat) (pending : List ToolExecution) (completed : List String)
        accR accE accT,
      pending ≠ [] → pending.filter (isReady completed) = [] →
      planGo h m fuel pending completed accR accE accT =
        .circular (pending.map (fun ex => ex.toolName)) accT) := by
  have hwave : ∀ (fuel : Nat) (pending : List ToolExecution) (completed : List String)
      (accR : List (String × ToolResult)) (accE : List (String × String))
      (accT : List (String × String × Nat)),
      pending ≠ [] → pending.filter (isReady completed) = [] →
      planGo h m fuel pending completed accR accE accT =
        .circular (pending.map (fun ex => ex.toolName)) accT := by
    intro fuel pending completed accR accE accT hp hflt
    cases fuel with
    | zero =>
      unfold planGo
      rw [if_neg hp]
    | succ f =>
      unfold planGo
      rw [if_neg hp, if_pos hflt]
  refine ⟨?_, hwave⟩
  have hpe : pendingOf exs ≠ [] := pendingOf_ne_nil hne
  have hflt : (pendingOf exs).filter (isReady []) = [] := by
    rw [List.filter_eq_nil_iff]
    intro ex hex
    have hd : ex.dependsOn ≠ [] := hdep ex (mem_pendingOf hex)
    cases hdo : ex.dependsOn with
    | nil => exact absurd hdo hd
    | cons d t =>
      simp [isReady, hdo]
  have hee : exs.isEmpty = false := by
    cases exs with
    | nil => exact absurd rfl hne
    | cons a t => rfl
  unfold executePlan
  rw [hee]
  simp only [Bool.false_eq_true, if_false]
  exact hwave (pendingOf exs).length (pendingOf exs) [] [] [] [] hpe hflt

/-- Witness for `executePlan_circular`: the concrete 3-cycle
A→B→C→A with an always-succeeding handler. -/
theorem executePlan_circular_witness :
    (([⟨"A", "{}", ["B"]⟩, ⟨"B", "{}", ["C"]⟩, ⟨"C", "{}", ["A"]⟩] :
        List ToolExecution) ≠ [] ∧
      (∀ ex ∈ ([⟨"A", "{}", ["B"]⟩, ⟨"B", "{}", ["C"]⟩, ⟨"C", "{}", ["A"]⟩] :
        List ToolExecution), ex.dependsOn ≠ [])) ∧
    executePlan (fun _ _ _ => .ok ⟨"", []⟩) 2
        [⟨"A", "{}", ["B"]⟩, ⟨"B", "{}", ["C"]⟩, ⟨"C", "{}", ["A"]⟩] =
      .circular ["A", "B", "C"] [] :=
  ⟨⟨by decide, by decide⟩,
    (executePlan_circular (fun _ _ _ => .ok ⟨"", []⟩) 2
      [⟨"A", "{}", ["B"]⟩, ⟨"B", "{}", ["C"]⟩, ⟨"C", "{}", ["A"]⟩]
      (by decide) (by decide)).1⟩

/-- The success entry a tool contributes to the returned dict. -/
def successEntry (h : Handler) (m : Nat) (ex : ToolExecution) :
    Option (String × ToolResult) :=
  match (executeWithRetry h ex.toolName ex.argumentsJson m).result with
  | .ok v => some (ex.toolName, v)
  | .error _ => none

/-- The error a failed tool records on its execution object. -/
def failureEntry (h : Handler) (m : Nat) (ex : ToolExecution) :
    Option (String × String) :=
  match (executeWithRetry h ex.toolName ex.argumentsJson m).result with
  | .ok _ => none
  | .error e => some (ex.toolName, e)

/-- The handler invocations one tool's retry run adds to the trace. -/
def traceEntries (h : Handler) (m : Nat) (ex : ToolExecution) :
    List (String × String × Nat) :=
  (executeWithRetry h ex.toolName ex.argumentsJson m).calls.map
    (fun a => (ex.toolName, ex.argumentsJson, a))

lemma runWave_spec (h : Handler) (m : Nat) (ready : List ToolExecution) :
    runWave h m ready =
      (ready.filterMap (successEntry h m), ready.filterMap (failureEntry h m),
        ready.flatMap (traceEntries h m)) := by
  induction ready with
  | nil => rfl
  | cons ex rest ih =>
    cases hres : (executeWithRetry h ex.toolName ex.argumentsJson m).result with
    | ok v =>
      have hs : successEntry h m ex = some (ex.toolName, v) := by
        simp [successEntry, hres]
      have hf : failureEntry h m ex = none := by
        simp [failureEntry, hres]
      simp [runWave, hres, ih, hs, hf, List.filterMap_cons, traceEntries]
    | error e =>
      have hs : successEntry h m ex = none := by
        simp [successEntry, hres]
      have hf : failureEntry h m ex = some (ex.toolName, e) := by
        simp [failureEntry, hres]
      simp [runWave, hres, ih, hs, hf, List.filterMap_cons, traceEntries]

/-- Characterization of a successful `execute_plan` run: some
interleaving `order` of the pending executions (waves concatenated in
order) accounts exactly for the returned dict, the recorded errors and
the handler-invocation trace — each pending execution contributing its
own retry run exactly once. -/
lemma planGo_ok_spec (h : Handler) (m : Nat) :
    ∀ (fuel : Nat) (pending : List ToolExecution)
      (completed : List String) (accR : List (String × ToolResult))
      (accE : List (String × String)) (accT : List (String × String × Nat))
      (res : List (String × ToolResult)) (errs : List (String × String))
      (tr : List (String × String × Nat)),
      planGo h m fuel pending completed accR accE accT = .ok res errs tr →
      ∃ order : List ToolExecution, order.Perm pending ∧
        res = accR ++ order.filterMap (successEntry h m) ∧
        errs = accE ++ order.filterMap (failureEntry h m) ∧
        tr = accT ++ order.flatMap (traceEntries h m) := by
  intro fuel
  induction fuel with
  | zero =>
    intro pending completed accR accE accT res errs tr heq
    by_cases hp : pending = []
    · subst hp
      unfold planGo at heq
      rw [if_pos rfl] at heq
      injection heq with h1 h2 h3
      exact ⟨[], List.Perm.refl _, by rw [← h1]; simp, by rw [← h2]; simp,
        by rw [← h3]; simp⟩
    · unfold planGo at heq
      rw [if_neg hp] at heq
      exact absurd heq (by simp)
  | succ n ih =>
    intro pending completed accR accE accT res errs tr heq
    by_cases hp : pending = []
    · subst hp
      unfold planGo at heq
      rw [if_pos rfl] at heq
      injection heq with h1 h2 h3
      exact ⟨[], List.Perm.refl _, by rw [← h1]; simp, by rw [← h2]; simp,
        by rw [← h3]; simp⟩
    · unfold planGo at heq
      rw [if_neg hp] at heq
      by_cases hflt : pending.filter (isReady completed) = []
      · rw [if_pos hflt] at heq
        exact absurd heq (by simp)
      · rw [if_neg hflt] at heq
        obtain ⟨order', hperm, hres, herrs, htr⟩ := ih _ _ _ _ _ _ _ _ heq
        rw [runWave_spec] at hres herrs htr
        refine ⟨pending.filter (isReady completed) ++ order', ?_, ?_, ?_, ?_⟩
        · exact (List.Perm.append_left _ hperm).trans (List.filter_append_perm _ pending)
        · rw [List.filterMap_append, ← List.append_assoc]
          exact hres
        · rw [List.filterMap_append, ← List.append_assoc]
          exact herrs
        · rw [List.flatMap_append, ← List.append_assoc]
          exact htr

/-- `execute_plan` characterization at the top level. -/
lemma executePlan_ok_spec (h : Handler) (m : Nat) (exs : List ToolExecution)
    (res : List (String × ToolResult)) (errs : List (String × String))
    (tr : List (String × String × Nat))
    (heq : executePlan h m exs = .ok res errs tr) :
    ∃ order : List ToolExecution, order.Perm (pendingOf exs) ∧
      res = order.filterMap (successEntry h m) ∧
      errs = order.filterMap (failureEntry h m) ∧
      tr = order.flatMap (traceEntries h m) := by
  unfold executePlan at heq
  by_cases he : exs.isEmpty
  · rw [if_pos he] at heq
    injection heq with h1 h2 h3
    have hnil : exs = [] := by
      cases exs with
      | nil => rfl
      | cons a t => simp at he
    refine ⟨[], by rw [hnil]; exact List.Perm.refl _, by rw [← h1]; simp,
      by rw [← h2]; simp, by rw [← h3]; simp⟩
  · rw [if_neg he] at heq
    obtain ⟨order, hperm, hres, herrs, htr⟩ :=
      planGo_ok_spec h m (pendingOf exs).length (pendingOf exs)
        [] [] [] [] res errs tr heq
    exact ⟨order, hperm, by simpa using hres, by simpa using herrs,
      by simpa using htr⟩

lemma names_upsertExecution (acc : List ToolExecution) (ex : ToolExecution) :
    (upsertExecution acc ex).map (fun e => e.toolName) =
      if acc.any (fun e => e.toolName == ex.toolName) then
        acc.map (fun e => e.toolName)
      else acc.map (fun e => e.toolName) ++ [ex.toolName] := by
  unfold upsertExecution
  split
  · rw [List.map_map]
    refine List.map_congr_left ?_
    intro a _
    by_cases hc : (a.toolName == ex.toolName) = true
    · simp only [Function.comp, if_pos hc]
      exact (eq_of_beq hc).symm
    · simp [Function.comp, hc]
  · simp

lemma names_nodup_upsert (acc : List ToolExecution) (ex : ToolExecution)
    (hn : (acc.map (fun e => e.toolName)).Nodup) :
    ((upsertExecution acc ex).map (fun e => e.toolName)).Nodup := by
  rw [names_upsertExecution]
  split
  · exact hn
  · rename_i hany
    have hnotin : ex.toolName ∉ acc.map (fun e => e.toolName) := by
      intro hmem
      rcases List.mem_map.mp hmem with ⟨a, ha, hae⟩
      exact hany (List.any_eq_true.mpr ⟨a, ha, by simp [hae]⟩)
    rw [List.nodup_append]
    refine ⟨hn, List.nodup_singleton _, ?_⟩
    intro x hx hx1
    have : x = ex.toolName := by simpa using hx1
    exact hnotin (this ▸ hx)

lemma pendingOf_names_nodup (exs : List ToolExecution) :
    ((pendingOf exs).map (fun e => e.toolName)).Nodup := by
  suffices hgen : ∀ (l acc : List ToolExecution),
      (acc.map (fun e => e.toolName)).Nodup →
      ((l.foldl upsertExecution acc).map (fun e => e.toolName)).Nodup by
    exact hgen exs [] (by simp)
  intro l
  induction l with
  | nil => intro acc h; simpa using h
  | cons x t ih =>
    intro acc h
    rw [List.foldl_cons]
    exact ih _ (names_nodup_upsert acc x h)

lemma find?_map_replace (ex : ToolExecution) :
    ∀ (acc : List ToolExecution),
      acc.any (fun e => e.toolName == ex.toolName) = true →
      (acc.map (fun e => if e.toolName == ex.toolName then ex else e)).find?
        (fun e => e.toolName == ex.toolName) = some ex := by
  intro acc
  induction acc with
  | nil => intro hc; simp at hc
  | cons a t ih =>
    intro hany
    by_cases ha : (a.toolName == ex.toolName) = true
    · simp only [List.map_cons, if_pos ha]
      simp [List.find?_cons]
    · have ha' : (a.toolName == ex.toolName) = false := by simpa using ha
      rw [List.map_cons, if_neg ha]
      simp only [List.find?_cons, ha', cond_false]
      refine ih ?_
      rcases List.any_eq_true.mp hany with ⟨b, hb, hpb⟩
      rcases List.mem_cons.mp hb with rfl | hbt
      · exact absurd hpb ha
      · exact List.any_eq_true.mpr ⟨b, hbt, hpb⟩

lemma find?_map_replace_other (ex : ToolExecution) (name : String)
    (hne : (ex.toolName == name) = false) :
    ∀ (acc : List ToolExecution),
      (acc.map (fun e => if e.toolName == ex.toolName then ex else e)).find?
        (fun e => e.toolName == name) =
        acc.find? (fun e => e.toolName == name) := by
  intro acc
  induction acc with
  | nil => rfl
  | cons a t ih =>
    by_cases ha : (a.toolName == ex.toolName) = true
    · have haname : (a.toolName == name) = false := by
        rw [eq_of_beq ha]
        exact hne
      rw [List.map_cons, if_pos ha]
      simp only [List.find?_cons, hne, haname, cond_false]
      exact ih
    · rw [List.map_cons, if_neg ha]
      simp only [List.find?_cons]
      by_cases hn2 : (a.toolName == name) = true
      · simp only [hn2, cond_true]
      · have hn2' : (a.toolName == name) = false := by simpa using hn2
        simp only [hn2', cond_false]
        exact ih

lemma find?_upsert_self (acc : List ToolExecution) (ex : ToolExecution) :
    (upsertExecution acc ex).find? (fun e => e.toolName == ex.toolName) = some ex := by
  unfold upsertExecution
  split
  · exact find?_map_replace ex acc (by assumption)
  · rename_i hany
    rw [List.find?_append]
    have h1 : acc.find? (fun e => e.toolName == ex.toolName) = none := by
      rw [List.find?_eq_none]
      intro x hx hpx
      exact hany (List.any_eq_true.mpr ⟨x, hx, hpx⟩)
    rw [h1]
    simp [List.find?]

lemma find?_upsert_other (acc : List ToolExecution) (ex : ToolExecution) (name : String)
    (hne : (ex.toolName == name) = false) :
    (upsertExecution acc ex).find? (fun e => e.toolName == name) =
      acc.find? (fun e => e.toolName == name) := by
  unfold upsertExecution
  split
  · exact find?_map_replace_other ex name hne acc
  · rw [List.find?_append]
    have h2 : ([ex] : List ToolExecution).find? (fun e => e.toolName == name) = none := by
      simp [List.find?, hne]
    rw [h2, Option.or_none]

lemma find?_foldl_upsert (name : String) :
    ∀ (l acc : List ToolExecution),
      (l.foldl upsertExecution acc).find? (fun e => e.toolName == name) =
        ((l.filter (fun e => e.toolName == name)).getLast?).or
          (acc.find? (fun e => e.toolName == name)) := by
  intro l
  induction l with
  | nil => intro acc; simp
  | cons x t ih =>
    intro acc
    rw [List.foldl_cons, ih]
    by_cases hx : (x.toolName == name) = true
    · have hux : (upsertExecution acc x).find? (fun e => e.toolName == name) = some x := by
        have hxn : x.toolName = name := eq_of_beq hx
        rw [← hxn]
        exact find?_upsert_self acc x
      rw [hux, List.filter_cons, if_pos hx]
      cases hft : t.filter (fun e => e.toolName == name) with
      | nil => simp
      | cons b fl =>
        rw [List.getLast?_cons_cons]
        rcases List.getLast?_eq_getLast (b :: fl) (by simp) with hgl
        rw [hgl]
        rfl
    · have hx' : (x.toolName == name) = false := by simpa using hx
      rw [find?_upsert_other acc x name hx', List.filter_cons, if_neg hx]

lemma pendingOf_find?_last (exs : List ToolExecution) (name : String) :
    (pendingOf exs).find? (fun e => e.toolName == name) =
      (exs.filter (fun e => e.toolName == name)).getLast? := by
  have h := find?_foldl_upsert name exs []
  simpa [pendingOf] using h

lemma successEntry_some {h : Handler} {m : Nat} {ex : ToolExecution}
    {p : String × ToolResult} (hs : successEntry h m ex = some p) :
    p.1 = ex.toolName ∧
      (executeWithRetry h ex.toolName ex.argumentsJson m).result = .ok p.2 := by
  unfold successEntry at hs
  cases hres : (executeWithRetry h ex.toolName ex.argumentsJson m).result with
  | ok v =>
    rw [hres] at hs
    obtain rfl : p = (ex.toolName, v) := by simpa [eq_comm] using hs
    exact ⟨rfl, rfl⟩
  | error e =>
    rw [hres] at hs
    simp at hs

lemma executeWithRetry_calls_zero_mem (h : Handler) (name args : String) (m : Nat) :
    0 ∈ (executeWithRetry h name args m).calls := by
  rcases retryGo_shape h name args m 0 with ⟨k, hk1, _, hcalls, _⟩
  obtain ⟨j, rfl⟩ : ∃ j, k = j + 1 := ⟨k - 1, by omega⟩
  rw [executeWithRetry, hcalls, List.range'_succ]
  exact List.mem_cons_self 0 _

/-! # The parallel branch of `RagAgent._run_tool_conversation`
(agent.py lines 507–574)

For each tool call of the batch the loop appends one `role: "tool"`
message: the shared result rendered as JSON when the call's name is in
the returned dict, otherwise `{"status": "error", "message": ...}` with
the error recorded on the matching execution (or "Unknown error").
The JSON rendering is abstracted to the carried payload. -/

/-- One entry of `message["tool_calls"]`: its id and function name. -/
structure ToolCall where
  id : String
  name : String
deriving DecidableEq

/-- `if name in results: results[name]` on the returned dict. -/
def lookupResult (results : List (String × ToolResult)) (name : String) :
    Option ToolResult :=
  (results.find? (fun p => p.1 == name)).map (fun p => p.2)

/-- Content of the appended tool message. -/
inductive ToolMessageContent where
  | payload (r : ToolResult)
  | errorStatus (message : String)
deriving DecidableEq

/-- A `{"role": "tool", "tool_call_id": ..., "name": ..., "content": ...}`
message. -/
structure ToolMessage where
  callId : String
  name : String
  content : ToolMessageContent
deriving DecidableEq

/-- The result-processing loop over `tool_calls` (lines 507–574). -/
def processParallelResults (calls : List ToolCall)
    (results : List (String × ToolResult)) (errOf : String → Option String) :
    List ToolMessage :=
  calls.map (fun c =>
    match lookupResult results c.name with
    | some r => ⟨c.id, c.name, .payload r⟩
    | none => ⟨c.id, c.name, .errorStatus ((errOf c.name).getD "Unknown error")⟩)

/-- C7: when `execute_plan` returns (no circular dependency), a tool
whose retry run exhausts its attempts is recorded as failed — its error
is in the recorded errors, its handler was invoked exactly
`max_retries + 1` times and never again, and its name carries no entry
in the returned dict; sibling and dependent tools are still executed
(every pending tool's first attempt is in the trace, and a succeeding
tool's result is in the dict regardless of other failures); and the
conversation loop substitutes an explicit `status: "error"` tool
message for every call whose name is missing from the dict. -/
theorem executePlan_failure_isolation (h : Handler) (m : Nat)
    (exs : List ToolExecution) (res : List (String × ToolResult))
    (errs : List (String × String)) (tr : List (String × String × Nat))
    (hok : executePlan h m exs = .ok res errs tr) :
    (∀ ex ∈ pendingOf exs, ∀ e : String,
      (executeWithRetry h ex.toolName ex.argumentsJson m).result = .error e →
        (ex.toolName, e) ∈ errs ∧
        (executeWithRetry h ex.toolName ex.argumentsJson m).calls.length = m + 1 ∧
        (∀ v : ToolResult, (ex.toolName, v) ∉ res)) ∧
    (∀ ex ∈ pendingOf exs, ∀ v : ToolResult,
      (executeWithRetry h ex.toolName ex.argumentsJson m).result = .ok v →
        (ex.toolName, v) ∈ res) ∧
    (∀ ex ∈ pendingOf exs, (ex.toolName, ex.argumentsJson, 0) ∈ tr) ∧
    (∀ (calls : List ToolCall) (errOf : String → Option String), ∀ c ∈ calls,
      lookupResult res c.name = none →
        (⟨c.id, c.name,
            ToolMessageContent.errorStatus ((errOf c.name).getD "Unknown error")⟩ :
          ToolMessage) ∈ processParallelResults calls res errOf) := by
  obtain ⟨order, hperm, hres, herrs, htr⟩ := executePlan_ok_spec h m exs res errs tr hok
  refine ⟨?_, ?_, ?_, ?_⟩
  · intro ex hex e herr
    have hexo : ex ∈ order := hperm.mem_iff.mpr hex
    refine ⟨?_, retryGo_error_calls h ex.toolName ex.argumentsJson m 0 e herr, ?_⟩
    · rw [herrs]
      exact List.mem_filterMap.mpr ⟨ex, hexo, by simp [failureEntry, herr]⟩
    · intro v hv
      rw [hres] at hv
      rcases List.mem_filterMap.mp hv with ⟨ex2, hex2, hse⟩
      obtain ⟨hname, hok2⟩ := successEntry_some hse
      have hex2p : ex2 ∈ pendingOf exs := hperm.mem_iff.mp hex2
      have heq22 : ex2 = ex :=
        List.inj_on_of_nodup_map (pendingOf_names_nodup exs) hex2p hex hname.symm
      rw [heq22, herr] at hok2
      exact absurd hok2 (by simp)
  · intro ex hex v hv
    rw [hres]
    exact List.mem_filterMap.mpr ⟨ex, hperm.mem_iff.mpr hex, by simp [successEntry, hv]⟩
  · intro ex hex
    rw [htr]
    refine List.mem_flatMap.mpr ⟨ex, hperm.mem_iff.mpr hex, ?_⟩
    unfold traceEntries
    exact List.mem_map.mpr
      ⟨0, executeWithRetry_calls_zero_mem h ex.toolName ex.argumentsJson m, rfl⟩
  · intro calls errOf c hc hnone
    unfold processParallelResults
    refine List.mem_map.mpr ⟨c, hc, ?_⟩
    rw [hnone]

/-- Witness for `executePlan_failure_isolation`: "bad_tool" fails both
attempts (max_retries = 1) while its sibling "ok_tool" and its
dependent "dep_tool" still run and succeed. -/
theorem executePlan_failure_isolation_witness :
    executePlan
        (fun n _ _ => if n = "bad_tool" then Except.error "boom" else Except.ok ⟨"r", []⟩) 1
        [⟨"ok_tool", "{}", []⟩, ⟨"bad_tool", "{}", []⟩, ⟨"dep_tool", "{}", ["bad_tool"]⟩] =
      .ok [("ok_tool", ⟨"r", []⟩), ("dep_tool", ⟨"r", []⟩)] [("bad_tool", "boom")]
        [("ok_tool", "{}", 0), ("bad_tool", "{}", 0), ("bad_tool", "{}", 1),
          ("dep_tool", "{}", 0)] ∧
    (("bad_tool", "boom") ∈ [("bad_tool", "boom")] ∧
      (executeWithRetry
          (fun n _ _ => if n = "bad_tool" then Except.error "boom" else Except.ok ⟨"r", []⟩)
          "bad_tool" "{}" 1).calls.length = 1 + 1 ∧
      (∀ v : ToolResult,
        ("bad_tool", v) ∉ [("ok_tool", (⟨"r", []⟩ : ToolResult)), ("dep_tool", ⟨"r", []⟩)])) ∧
    ("dep_tool", "{}", 0) ∈
      [("ok_tool", "{}", 0), ("bad_tool", "{}", 0), ("bad_tool", "{}", 1),
        ("dep_tool", "{}", 0)] := by
  have hok : executePlan
      (fun n _ _ => if n = "bad_tool" then Except.error "boom" else Except.ok ⟨"r", []⟩) 1
      [⟨"ok_tool", "{}", []⟩, ⟨"bad_tool", "{}", []⟩, ⟨"dep_tool", "{}", ["bad_tool"]⟩] =
      .ok [("ok_tool", ⟨"r", []⟩), ("dep_tool", ⟨"r", []⟩)] [("bad_tool", "boom")]
        [("ok_tool", "{}", 0), ("bad_tool", "{}", 0), ("bad_tool", "{}", 1),
          ("dep_tool", "{}", 0)] := by decide
  have hthm := executePlan_failure_isolation
    (fun n _ _ => if n = "bad_tool" then Except.error "boom" else Except.ok ⟨"r", []⟩) 1
    [⟨"ok_tool", "{}", []⟩, ⟨"bad_tool", "{}", []⟩, ⟨"dep_tool", "{}", ["bad_tool"]⟩]
    [("ok_tool", ⟨"r", []⟩), ("dep_tool", ⟨"r", []⟩)] [("bad_tool", "boom")]
    [("ok_tool", "{}", 0), ("bad_tool", "{}", 0), ("bad_tool", "{}", 1),
      ("dep_tool", "{}", 0)] hok
  exact ⟨hok,
    hthm.1 ⟨"bad_tool", "{}", []⟩ (by decide) "boom" rfl,
    hthm.2.2.1 ⟨"dep_tool", "{}", ["bad_tool"]⟩ (by decide)⟩

/-- C10 (implicit): `execute_plan` keys its pending set by tool name —
after the dict comprehension there is at most one pending execution per
name (the last duplicate's arguments at the first duplicate's
position), the returned dict has at most one entry per name, every
handler invocation in the trace carries a pending entry's name and
arguments (so only one of several same-named invocations is ever
executed), and the conversation loop answers every call of the batch
whose name maps to a result with that single shared result. -/
theorem executePlan_duplicate_names (h : Handler) (m : Nat)
    (exs : List ToolExecution) (res : List (String × ToolResult))
    (errs : List (String × String)) (tr : List (String × String × Nat))
    (hok : executePlan h m exs = .ok res errs tr) :
    ((pendingOf exs).map (fun e => e.toolName)).Nodup ∧
    (∀ name : String, (pendingOf exs).find? (fun e => e.toolName == name) =
      (exs.filter (fun e => e.toolName == name)).getLast?) ∧
    (res.map Prod.fst).Nodup ∧
    (∀ t ∈ tr, ∃ ex ∈ pendingOf exs, t.1 = ex.toolName ∧ t.2.1 = ex.argumentsJson) ∧
    (∀ (calls : List ToolCall) (errOf : String → Option String), ∀ c ∈ calls,
      ∀ r : ToolResult, lookupResult res c.name = some r →
        (⟨c.id, c.name, ToolMessageContent.payload r⟩ : ToolMessage) ∈
          processParallelResults calls res errOf) := by
  obtain ⟨order, hperm, hres, herrs, htr⟩ := executePlan_ok_spec h m exs res errs tr hok
  refine ⟨pendingOf_names_nodup exs, fun name => pendingOf_find?_last exs name, ?_, ?_, ?_⟩
  · have hsub : ∀ (l : List ToolExecution),
        ((l.filterMap (successEntry h m)).map Prod.fst).Sublist
          (l.map (fun e => e.toolName)) := by
      intro l
      induction l with
      | nil => simp
      | cons x t ih =>
        cases hse : successEntry h m x with
        | none =>
          simp only [List.filterMap_cons, hse, List.map_cons]
          exact ih.cons _
        | some p =>
          have hp1 : p.1 = x.toolName := (successEntry_some hse).1
          simp only [List.filterMap_cons, hse, List.map_cons, hp1]
          exact ih.cons₂ _
    rw [hres]
    refine (hsub order).nodup ?_
    exact ((hperm.map (fun e => e.toolName)).nodup_iff).mpr (pendingOf_names_nodup exs)
  · intro t ht
    rw [htr] at ht
    rcases List.mem_flatMap.mp ht with ⟨ex, hexo, hte⟩
    rcases List.mem_map.mp (by simpa [traceEntries] using hte) with ⟨a, _, hta⟩
    exact ⟨ex, hperm.mem_iff.mp hexo, by rw [← hta], by rw [← hta]⟩
  · intro calls errOf c hc r hr
    unfold processParallelResults
    refine List.mem_map.mpr ⟨c, hc, ?_⟩
    rw [hr]

/-- Witness for `executePlan_duplicate_names`: two invocations of
"dup" in one batch; only the last one's arguments are executed, and
both calls are answered from the single shared result. -/
theorem executePlan_duplicate_names_witness :
    executePlan (fun _ _ _ => Except.ok ⟨"r", []⟩) 2
        [⟨"dup", "args1", []⟩, ⟨"dup", "args2", []⟩] =
      .ok [("dup", ⟨"r", []⟩)] [] [("dup", "args2", 0)] ∧
    ((pendingOf [⟨"dup", "args1", []⟩, ⟨"dup", "args2", []⟩]).map
      (fun e => e.toolName)).Nodup ∧
    (pendingOf [⟨"dup", "args1", []⟩, ⟨"dup", "args2", []⟩]).find?
        (fun e => e.toolName == "dup") = some ⟨"dup", "args2", []⟩ ∧
    (∀ t ∈ [("dup", "args2", 0)],
      ∃ ex ∈ pendingOf [⟨"dup", "args1", []⟩, ⟨"dup", "args2", []⟩],
        t.1 = ex.toolName ∧ t.2.1 = ex.argumentsJson) ∧
    (⟨"c1", "dup", .payload ⟨"r", []⟩⟩ : ToolMessage) ∈
      processParallelResults [⟨"c1", "dup"⟩, ⟨"c2", "dup"⟩]
        [("dup", ⟨"r", []⟩)] (fun _ => none) ∧
    (⟨"c2", "dup", .payload ⟨"r", []⟩⟩ : ToolMessage) ∈
      processParallelResults [⟨"c1", "dup"⟩, ⟨"c2", "dup"⟩]
        [("dup", ⟨"r", []⟩)] (fun _ => none) := by
  have hok : executePlan (fun _ _ _ => Except.ok ⟨"r", []⟩) 2
      [⟨"dup", "args1", []⟩, ⟨"dup", "args2", []⟩] =
      .ok [("dup", ⟨"r", []⟩)] [] [("dup", "args2", 0)] := by decide
  have hthm := executePlan_duplicate_names (fun _ _ _ => Except.ok ⟨"r", []⟩) 2
    [⟨"dup", "args1", []⟩, ⟨"dup", "args2", []⟩]
    [("dup", ⟨"r", []⟩)] [] [("dup", "args2", 0)] hok
  exact ⟨hok, hthm.1, (hthm.2.1 "dup").trans (by decide), hthm.2.2.2.1,
    hthm.2.2.2.2 [⟨"c1", "dup"⟩, ⟨"c2", "dup"⟩] (fun _ => none) ⟨"c1", "dup"⟩
      (by decide) ⟨"r", []⟩ (by decide),
    hthm.2.2.2.2 [⟨"c1", "dup"⟩, ⟨"c2", "dup"⟩] (fun _ => none) ⟨"c2", "dup"⟩
      (by decide) ⟨"r", []⟩ (by decide)⟩

/-! # `RagAgent._rrf_merge` (agent.py lines 1051–1087)

`fused_scores` and `best_result_for_chunk` are two dicts updated in
lockstep on the same keys inside the same nested loop, so they are
embedded as one insertion-ordered association list
`chunk_id ↦ (accumulated score, best instance)`.  The `rank_maps`
computed at lines 1055–1060 are never read afterwards (dead code) and
are omitted.  Scores are exact rationals. -/

/-- `vector_manager.VectorSearchResult`: identity of the underlying
chunk, its raw similarity score, and a tag abstracting the carried
chunk text and payload (it distinguishes instances). -/
structure VectorSearchResult where
  chunkId : Int
  score : ℚ
  payloadTag : Nat
deriving DecidableEq

/-- One inner-loop iteration (lines 1064–1077): add `1/(k+rank)` to the
fingerprint's running total and keep the strictly-better-scoring
instance as representative. -/
def fuseStep (k : Nat) (acc : List (Int × ℚ × VectorSearchResult)) (rank : Nat)
    (res : VectorSearchResult) : List (Int × ℚ × VectorSearchResult) :=
  match acc with
  | [] => [(res.chunkId, 1 / ((k : ℚ) + rank), res)]
  | (c, s, b) :: rest =>
    if c = res.chunkId then
      (c, s + 1 / ((k : ℚ) + rank), if res.score > b.score then res else b) :: rest
    else (c, s, b) :: fuseStep k rest rank res

/-- The inner loop over one ranked list, `rank` starting at 1. -/
def fuseList (k : Nat) :
    List (Int × ℚ × VectorSearchResult) → List VectorSearchResult → Nat →
      List (Int × ℚ × VectorSearchResult)
  | acc, [], _ => acc
  | acc, r :: rest, rank => fuseList k (fuseStep k acc rank r) rest (rank + 1)

/-- The outer loop over all result lists. -/
def fuseAll (k : Nat) :
    List (Int × ℚ × VectorSearchResult) → List (List VectorSearchResult) →
      List (Int × ℚ × VectorSearchResult)
  | acc, [] => acc
  | acc, lst :: rest => fuseAll k (fuseList k acc lst 1) rest

/-- The fused accumulator of `_rrf_merge` over all lists. -/
def fusedOf (resultsByQuery : List (List VectorSearchResult)) (k : Nat) :
    List (Int × ℚ × VectorSearchResult) :=
  fuseAll k [] resultsByQuery

/-- Insert one entry into a score-descending list, after existing
entries of equal score (the stability of Python's `list.sort`). -/
def insertDescending (x : Int × ℚ × VectorSearchResult) :
    List (Int × ℚ × VectorSearchResult) → List (Int × ℚ × VectorSearchResult)
  | [] => [x]
  | y :: ys => if x.2.1 > y.2.1 then x :: y :: ys else y :: insertDescending x ys

/-- `fused.sort(key=lambda x: x[1], reverse=True)` — a stable sort by
accumulated score, descending. -/
def sortDescending (l : List (Int × ℚ × VectorSearchResult)) :
    List (Int × ℚ × VectorSearchResult) :=
  l.foldl (fun acc x => insertDescending x acc) []

/-- `RagAgent._rrf_merge`. -/
def rrfMerge (resultsByQuery : List (List VectorSearchResult)) (k : Nat)
    (limit : Nat) : List VectorSearchResult :=
  ((sortDescending (fusedOf resultsByQuery k)).take limit).map (fun t => t.2.2)

/-- Accumulated score of a fingerprint in the association list (0 when
absent). -/
def scoreOf : List (Int × ℚ × VectorSearchResult) → Int → ℚ
  | [], _ => 0
  | (c, s, _) :: rest, cid => if c = cid then s else scoreOf rest cid

/-- Representative instance stored for a fingerprint. -/
def bestOf : List (Int × ℚ × VectorSearchResult) → Int → Option VectorSearchResult
  | [], _ => none
  | (c, _, b) :: rest, cid => if c = cid then some b else bestOf rest cid

/-- The spec's accumulation, written from the spec's words: the item at
zero-based position `i` (rank `i+1`) of a list contributes
`1/(k+i+1)` to its fingerprint. -/
def rrfContrib (k : Nat) (cid : Int) : List VectorSearchResult → Nat → ℚ
  | [], _ => 0
  | r :: rest, rank =>
    (if r.chunkId = cid then 1 / ((k : ℚ) + rank) else 0) +
      rrfContrib k cid rest (rank + 1)

/-- Total spec score of a fingerprint: one contribution per occurrence,
accumulated over every list. -/
def rrfScoreSpec (resultsByQuery : List (List VectorSearchResult)) (k : Nat)
    (cid : Int) : ℚ :=
  (resultsByQuery.map (fun lst => rrfContrib k cid lst 1)).sum

lemma scoreOf_fuseStep (k : Nat) (rank : Nat) (r : VectorSearchResult) (cid : Int) :
    ∀ acc, scoreOf (fuseStep k acc rank r) cid =
      scoreOf acc cid + (if r.chunkId = cid then 1 / ((k : ℚ) + rank) else 0) := by
  intro acc
  induction acc with
  | nil =>
    by_cases hc : r.chunkId = cid
    · simp [fuseStep, scoreOf, hc]
    · simp [fuseStep, scoreOf, hc]
  | cons t rest ih =>
    obtain ⟨c, s, b⟩ := t
    by_cases hcr : c = r.chunkId
    · rw [fuseStep, if_pos hcr]
      by_cases hc : c = cid
      · rw [scoreOf, if_pos hc, scoreOf, if_pos hc, if_pos (by rw [← hcr]; exact hc)]
      · rw [scoreOf, if_neg hc, scoreOf, if_neg hc,
          if_neg (by rw [← hcr]; exact hc)]
        simp
    · rw [fuseStep, if_neg hcr]
      by_cases hc : c = cid
      · have hrc : ¬ r.chunkId = cid := by
          intro hh
          exact hcr (by rw [hh, hc])
        rw [scoreOf, if_pos hc, scoreOf, if_pos hc, if_neg hrc]
        simp
      · rw [scoreOf, if_neg hc, scoreOf, if_neg hc]
        exact ih

lemma scoreOf_fuseList (k : Nat) (cid : Int) :
    ∀ (lst : List VectorSearchResult) (acc : List (Int × ℚ × VectorSearchResult))
      (rank : Nat),
      scoreOf (fuseList k acc lst rank) cid =
        scoreOf acc cid + rrfContrib k cid lst rank := by
  intro lst
  induction lst with
  | nil => intro acc rank; simp [fuseList, rrfContrib]
  | cons r rest ih =>
    intro acc rank
    rw [fuseList, ih, scoreOf_fuseStep, rrfContrib]
    ring

lemma scoreOf_fuseAll (k : Nat) (cid : Int) :
    ∀ (rbq : List (List VectorSearchResult))
      (acc : List (Int × ℚ × VectorSearchResult)),
      scoreOf (fuseAll k acc rbq) cid =
        scoreOf acc cid + rrfScoreSpec rbq k cid := by
  intro rbq
  induction rbq with
  | nil => intro acc; simp [fuseAll, rrfScoreSpec]
  | cons lst rest ih =>
    intro acc
    rw [fuseAll, ih, scoreOf_fuseList]
    simp [rrfScoreSpec]
    ring

/-- C2: in the RRF merge, a fingerprint's accumulated score is exactly
the sum, over every list and every occurrence at zero-based position
`i`, of `1/(k+i+1)` — one contribution per list it appears in; in
particular for two single-item lists both holding fingerprint `c` at
rank 1 the fused score is `2/(k+1)`, strictly greater than the
`1/(k+1)` earned by a fingerprint at rank 1 of a single list. -/
theorem rrfMerge_score_accumulation (rbq : List (List VectorSearchResult))
    (k : Nat) (cid : Int) :
    scoreOf (fusedOf rbq k) cid = rrfScoreSpec rbq k cid ∧
    (∀ (c : Int) (q1 q2 : ℚ) (t1 t2 : Nat),
      scoreOf (fusedOf [[⟨c, q1, t1⟩], [⟨c, q2, t2⟩]] k) c = 2 / ((k : ℚ) + 1) ∧
      (1 : ℚ) / ((k : ℚ) + 1) < 2 / ((k : ℚ) + 1)) := by
  constructor
  · have h := scoreOf_fuseAll k cid rbq []
    simpa [fusedOf, scoreOf] using h
  · intro c q1 q2 t1 t2
    have hk : (0 : ℚ) < (k : ℚ) + 1 := by positivity
    constructor
    · have h := scoreOf_fuseAll k c [[⟨c, q1, t1⟩], [⟨c, q2, t2⟩]] []
      rw [fusedOf, h]
      simp only [scoreOf, rrfScoreSpec, rrfContrib, List.map_cons, List.map_nil,
        List.sum_cons, List.sum_nil, if_pos rfl]
      have h2 : (1 : ℚ) / ((k : ℚ) + 1) + 1 / ((k : ℚ) + 1) = 2 / ((k : ℚ) + 1) := by
        rw [div_add_div_same]
        norm_num
      push_cast
      linarith [h2]
    · rw [div_lt_div_iff_of_pos_right hk]
      norm_num

lemma mem_insertDescending {x y : Int × ℚ × VectorSearchResult} :
    ∀ {l : List (Int × ℚ × VectorSearchResult)},
      y ∈ insertDescending x l ↔ y = x ∨ y ∈ l := by
  intro l
  induction l with
  | nil => simp [insertDescending]
  | cons z zs ih =>
    unfold insertDescending
    split
    · simp [List.mem_cons]
    · simp only [List.mem_cons, ih]
      tauto

lemma mem_sortDescending {y : Int × ℚ × VectorSearchResult}
    {l : List (Int × ℚ × VectorSearchResult)} :
    y ∈ sortDescending l ↔ y ∈ l := by
  suffices hgen : ∀ (l acc : List (Int × ℚ × VectorSearchResult)),
      (y ∈ l.foldl (fun acc x => insertDescending x acc) acc ↔ y ∈ acc ∨ y ∈ l) by
    have h := hgen l []
    simpa [sortDescending] using h
  intro l
  induction l with
  | nil => intro acc; simp
  | cons x xs ih =>
    intro acc
    rw [List.foldl_cons, ih]
    rw [mem_insertDescending]
    simp [List.mem_cons]
    tauto

lemma pairwise_insertDescending {x : Int × ℚ × VectorSearchResult}
    {l : List (Int × ℚ × VectorSearchResult)}
    (hl : l.Pairwise (fun a b => b.2.1 ≤ a.2.1)) :
    (insertDescending x l).Pairwise (fun a b => b.2.1 ≤ a.2.1) := by
  induction l with
  | nil => simp [insertDescending]
  | cons z zs ih =>
    rw [List.pairwise_cons] at hl
    obtain ⟨hz, hzs⟩ := hl
    unfold insertDescending
    split
    · rename_i hgt
      rw [List.pairwise_cons]
      constructor
      · intro w hw
        rcases List.mem_cons.mp hw with rfl | hwzs
        · exact le_of_lt hgt
        · exact le_trans (hz w hwzs) (le_of_lt hgt)
      · exact List.pairwise_cons.mpr ⟨hz, hzs⟩
    · rename_i hle
      rw [List.pairwise_cons]
      constructor
      · intro w hw
        rcases mem_insertDescending.mp hw with rfl | hwzs
        · exact not_lt.mp hle
        · exact hz w hwzs
      · exact ih hzs

lemma pairwise_sortDescending (l : List (Int × ℚ × VectorSearchResult)) :
    (sortDescending l).Pairwise (fun a b => b.2.1 ≤ a.2.1) := by
  suffices hgen : ∀ (l acc : List (Int × ℚ × VectorSearchResult)),
      acc.Pairwise (fun a b => b.2.1 ≤ a.2.1) →
      (l.foldl (fun acc x => insertDescending x acc) acc).Pairwise
        (fun a b => b.2.1 ≤ a.2.1) by
    exact hgen l [] (List.Pairwise.nil)
  intro l
  induction l with
  | nil => intro acc h; simpa using h
  | cons x xs ih =>
    intro acc h
    rw [List.foldl_cons]
    exact ih _ (pairwise_insertDescending h)

/-- The keys of the fused association list. -/
def fusedKeys (acc : List (Int × ℚ × VectorSearchResult)) : List Int :=
  acc.map (fun t => t.1)

lemma keys_fuseStep (k : Nat) (rank : Nat) (r : VectorSearchResult) :
    ∀ acc, fusedKeys (fuseStep k acc rank r) =
      if r.chunkId ∈ fusedKeys acc then fusedKeys acc
      else fusedKeys acc ++ [r.chunkId] := by
  intro acc
  induction acc with
  | nil => simp [fuseStep, fusedKeys]
  | cons t rest ih =>
    obtain ⟨c, s, b⟩ := t
    by_cases hcr : c = r.chunkId
    · rw [fuseStep, if_pos hcr]
      have hmem : r.chunkId ∈ fusedKeys ((c, s, b) :: rest) := by
        simp [fusedKeys, hcr.symm]
      rw [if_pos hmem]
      simp [fusedKeys]
    · rw [fuseStep, if_neg hcr]
      by_cases hm : r.chunkId ∈ fusedKeys rest
      · have hmem : r.chunkId ∈ fusedKeys ((c, s, b) :: rest) := by
          simp [fusedKeys] at hm ⊢
          exact Or.inr hm
        rw [if_pos hmem]
        simp only [fusedKeys, List.map_cons] at ih ⊢
        rw [ih, if_pos (by simpa [fusedKeys] using hm)]
      · have hmem : r.chunkId ∉ fusedKeys ((c, s, b) :: rest) := by
          simp [fusedKeys] at hm ⊢
          exact ⟨fun hh => hcr hh.symm, hm⟩
        rw [if_neg hmem]
        simp only [fusedKeys, List.map_cons] at ih ⊢
        rw [ih, if_neg (by simpa [fusedKeys] using hm)]
        simp

lemma keys_nodup_fuseStep (k : Nat) (rank : Nat) (r : VectorSearchResult)
    (acc : List (Int × ℚ × VectorSearchResult))
    (h : (fusedKeys acc).Nodup) : (fusedKeys (fuseStep k acc rank r)).Nodup := by
  rw [keys_fuseStep]
  split
  · exact h
  · rename_i hnm
    rw [List.nodup_append]
    exact ⟨h, List.nodup_singleton _, by
      intro a ha hb
      have : a = r.chunkId := by simpa using hb
      exact hnm (this ▸ ha)⟩

lemma keys_nodup_fuseList (k : Nat) :
    ∀ (lst : List VectorSearchResult) (acc : List (Int × ℚ × VectorSearchResult))
      (rank : Nat), (fusedKeys acc).Nodup →
      (fusedKeys (fuseList k acc lst rank)).Nodup := by
  intro lst
  induction lst with
  | nil => intro acc rank h; exact h
  | cons r rest ih =>
    intro acc rank h
    rw [fuseList]
    exact ih _ _ (keys_nodup_fuseStep k rank r acc h)

lemma keys_nodup_fusedOf (rbq : List (List VectorSearchResult)) (k : Nat) :
    (fusedKeys (fusedOf rbq k)).Nodup := by
  suffices hgen : ∀ (rbq : List (List VectorSearchResult))
      (acc : List (Int × ℚ × VectorSearchResult)), (fusedKeys acc).Nodup →
      (fusedKeys (fuseAll k acc rbq)).Nodup by
    exact hgen rbq [] (by simp [fusedKeys])
  intro rbq
  induction rbq with
  | nil => intro acc h; exact h
  | cons lst rest ih =>
    intro acc h
    rw [fuseAll]
    exact ih _ (keys_nodup_fuseList k lst acc 1 h)

lemma lookup_self {acc : List (Int × ℚ × VectorSearchResult)}
    (hnd : (fusedKeys acc).Nodup) {t : Int × ℚ × VectorSearchResult} (ht : t ∈ acc) :
    scoreOf acc t.1 = t.2.1 ∧ bestOf acc t.1 = some t.2.2 := by
  induction acc with
  | nil => simp at ht
  | cons u rest ih =>
    obtain ⟨c, s, b⟩ := u
    simp only [fusedKeys, List.map_cons] at hnd
    obtain ⟨hcnot, hrest_nd⟩ := List.nodup_cons.mp hnd
    rcases List.mem_cons.mp ht with rfl | htr
    · constructor <;> simp [scoreOf, bestOf]
    · have ht1 : t.1 ∈ fusedKeys rest := List.mem_map.mpr ⟨t, htr, rfl⟩
      have hne : ¬ c = t.1 := fun hh => hcnot (by simpa [fusedKeys, hh] using ht1)
      obtain ⟨ih1, ih2⟩ := ih hrest_nd htr
      constructor
      · rw [scoreOf, if_neg hne]
        exact ih1
      · rw [bestOf, if_neg hne]
        exact ih2

/-- The update of `best_result_for_chunk[cid]` by one occurrence
(lines 1072–1077): replace only on strictly greater raw score. -/
def bestUpd (cid : Int) (cur : Option VectorSearchResult)
    (r : VectorSearchResult) : Option VectorSearchResult :=
  if r.chunkId = cid then
    match cur with
    | none => some r
    | some b => some (if r.score > b.score then r else b)
  else cur

/-- The representative the nested loop would select for `cid` after
seeing the occurrences `done` in iteration order. -/
def bestSpec (done : List VectorSearchResult) (cid : Int) :
    Option VectorSearchResult :=
  done.foldl (bestUpd cid) none

lemma bestOf_fuseStep (k : Nat) (rank : Nat) (r : VectorSearchResult) (cid : Int) :
    ∀ acc, bestOf (fuseStep k acc rank r) cid = bestUpd cid (bestOf acc cid) r := by
  intro acc
  induction acc with
  | nil =>
    by_cases hc : r.chunkId = cid
    · simp [fuseStep, bestOf, bestUpd, hc]
    · simp [fuseStep, bestOf, bestUpd, hc]
  | cons t rest ih =>
    obtain ⟨c, s, b⟩ := t
    by_cases hcr : c = r.chunkId
    · rw [fuseStep, if_pos hcr]
      by_cases hc : c = cid
      · have hrc : r.chunkId = cid := by rw [← hcr]; exact hc
        rw [bestOf, if_pos hc, bestOf, if_pos hc, bestUpd.eq_def, if_pos hrc]
      · have hrc : ¬ r.chunkId = cid := by
          intro hh
          exact hc (by rw [hcr, hh])
        rw [bestOf, if_neg hc, bestOf, if_neg hc, bestUpd.eq_def, if_neg hrc]
    · rw [fuseStep, if_neg hcr]
      by_cases hc : c = cid
      · have hrc : ¬ r.chunkId = cid := by
          intro hh
          exact hcr (by rw [hh, hc])
        rw [bestOf, if_pos hc, bestOf, if_pos hc, bestUpd.eq_def, if_neg hrc]
      · rw [bestOf, if_neg hc, bestOf, if_neg hc]
        exact ih

lemma bestOf_fuseList (k : Nat) (cid : Int) :
    ∀ (lst : List VectorSearchResult) (acc : List (Int × ℚ × VectorSearchResult))
      (rank : Nat),
      bestOf (fuseList k acc lst rank) cid = lst.foldl (bestUpd cid) (bestOf acc cid) := by
  intro lst
  induction lst with
  | nil => intro acc rank; rfl
  | cons r rest ih =>
    intro acc rank
    rw [fuseList, ih, List.foldl_cons, bestOf_fuseStep]

lemma bestOf_fuseAll (k : Nat) (cid : Int) :
    ∀ (rbq : List (List VectorSearchResult))
      (acc : List (Int × ℚ × VectorSearchResult)),
      bestOf (fuseAll k acc rbq) cid =
        rbq.flatten.foldl (bestUpd cid) (bestOf acc cid) := by
  intro rbq
  induction rbq with
  | nil => intro acc; rfl
  | cons lst rest ih =>
    intro acc
    rw [fuseAll, ih, bestOf_fuseList, List.flatten_cons, List.foldl_append]

lemma bestOf_fusedOf (rbq : List (List VectorSearchResult)) (k : Nat) (cid : Int) :
    bestOf (fusedOf rbq k) cid = bestSpec rbq.flatten cid := by
  have h := bestOf_fuseAll k cid rbq []
  simpa [fusedOf, bestOf, bestSpec] using h

lemma bestUpd_foldl_spec (cid : Int) :
    ∀ (done : List VectorSearchResult) (cur : Option VectorSearchResult)
      (b : VectorSearchResult),
      done.foldl (bestUpd cid) cur = some b →
      (cur = some b ∨ (b ∈ done ∧ b.chunkId = cid)) ∧
      (∀ r ∈ done, r.chunkId = cid → r.score ≤ b.score) ∧
      (∀ b0, cur = some b0 → b0.score ≤ b.score) := by
  intro done
  induction done with
  | nil =>
    intro cur b h
    refine ⟨Or.inl (by simpa using h), by simp, ?_⟩
    intro b0 hb0
    rw [hb0] at h
    simp only [List.foldl_nil] at h
    injection h with h
    rw [h]
  | cons r rest ih =>
    intro cur b h
    rw [List.foldl_cons] at h
    obtain ⟨h1, h2, h3⟩ := ih (bestUpd cid cur r) b h
    by_cases hrc : r.chunkId = cid
    · cases cur with
      | none =>
        have hcur : bestUpd cid none r = some r := by
          simp [bestUpd.eq_def, hrc]
        rw [hcur] at h1 h3
        refine ⟨?_, ?_, by simp⟩
        · rcases h1 with hb | ⟨hm, hc⟩
          · injection hb with hb
            exact Or.inr ⟨by rw [← hb]; exact List.mem_cons_self r rest, by rw [← hb]; exact hrc⟩
          · exact Or.inr ⟨List.mem_cons_of_mem r hm, hc⟩
        · intro r2 hr2 hc2
          rcases List.mem_cons.mp hr2 with rfl | hr2t
          · exact h3 r2 rfl
          · exact h2 r2 hr2t hc2
      | some b1 =>
        have hcur : bestUpd cid (some b1) r =
            some (if r.score > b1.score then r else b1) := by
          simp [bestUpd.eq_def, hrc]
        rw [hcur] at h1 h3
        have hmax_le : b1.score ≤ (if r.score > b1.score then r else b1).score := by
          split
          · rename_i hgt
            exact le_of_lt hgt
          · exact le_refl _
        have hr_le : r.score ≤ (if r.score > b1.score then r else b1).score := by
          split
          · exact le_refl _
          · rename_i hngt
            exact not_lt.mp hngt
        refine ⟨?_, ?_, ?_⟩
        · rcases h1 with hb | ⟨hm, hc⟩
          · injection hb with hb
            by_cases hgt : r.score > b1.score
            · rw [if_pos hgt] at hb
              exact Or.inr ⟨by rw [← hb]; exact List.mem_cons_self r rest,
                by rw [← hb]; exact hrc⟩
            · rw [if_neg hgt] at hb
              exact Or.inl (by rw [hb])
          · exact Or.inr ⟨List.mem_cons_of_mem r hm, hc⟩
        · intro r2 hr2 hc2
          rcases List.mem_cons.mp hr2 with rfl | hr2t
          · exact le_trans hr_le (h3 _ rfl)
          · exact h2 r2 hr2t hc2
        · intro b0 hb0
          injection hb0 with hb0
          rw [← hb0]
          exact le_trans hmax_le (h3 _ rfl)
    · have hcur : bestUpd cid cur r = cur := by
        rw [bestUpd.eq_def, if_neg hrc]
      rw [hcur] at h1 h3
      refine ⟨?_, ?_, h3⟩
      · rcases h1 with hb | ⟨hm, hc⟩
        · exact Or.inl hb
        · exact Or.inr ⟨List.mem_cons_of_mem r hm, hc⟩
      · intro r2 hr2 hc2
        rcases List.mem_cons.mp hr2 with rfl | hr2t
        · exact absurd hc2 hrc
        · exact h2 r2 hr2t hc2

lemma bestSpec_spec (done : List VectorSearchResult) (cid : Int)
    (b : VectorSearchResult) (h : bestSpec done cid = some b) :
    b ∈ done ∧ b.chunkId = cid ∧
      ∀ r ∈ done, r.chunkId = cid → r.score ≤ b.score := by
  obtain ⟨h1, h2, _⟩ := bestUpd_foldl_spec cid done none b h
  rcases h1 with hcontra | ⟨hm, hc⟩
  · exact absurd hcontra (by simp)
  · exact ⟨hm, hc, h2⟩

/-- C3: for every input and limit, the RRF merge output has length at
most `limit`, is sorted by accumulated fused score in descending
order, and every output element is one of the input occurrences of its
fingerprint whose raw similarity score is maximal among all occurrences
of that fingerprint (the representative payload carried for a
fingerprint seen in several lists). -/
theorem rrfMerge_output_spec (rbq : List (List VectorSearchResult))
    (k limit : Nat) :
    (rrfMerge rbq k limit).length ≤ limit ∧
    (rrfMerge rbq k limit).Pairwise
      (fun a b => scoreOf (fusedOf rbq k) b.chunkId ≤ scoreOf (fusedOf rbq k) a.chunkId) ∧
    (∀ r ∈ rrfMerge rbq k limit,
      (∃ lst ∈ rbq, r ∈ lst) ∧
      (∀ lst ∈ rbq, ∀ r2 ∈ lst, r2.chunkId = r.chunkId → r2.score ≤ r.score)) := by
  have hfact : ∀ t ∈ sortDescending (fusedOf rbq k),
      t.2.2.chunkId = t.1 ∧ scoreOf (fusedOf rbq k) t.1 = t.2.1 ∧
        t.2.2 ∈ rbq.flatten ∧
        (∀ r2 ∈ rbq.flatten, r2.chunkId = t.1 → r2.score ≤ t.2.2.score) := by
    intro t htm
    have htf : t ∈ fusedOf rbq k := mem_sortDescending.mp htm
    obtain ⟨hsc, hbo⟩ := lookup_self (keys_nodup_fusedOf rbq k) htf
    rw [bestOf_fusedOf] at hbo
    obtain ⟨hmem, hcid, hmax⟩ := bestSpec_spec rbq.flatten t.1 t.2.2 hbo
    exact ⟨hcid, hsc, hmem, hmax⟩
  refine ⟨?_, ?_, ?_⟩
  · rw [rrfMerge, List.length_map]
    exact List.length_take_le limit _
  · have hsorted := pairwise_sortDescending (fusedOf rbq k)
    have htaken := List.Pairwise.sublist (List.take_sublist limit _) hsorted
    rw [rrfMerge, List.pairwise_map]
    refine htaken.imp_of_mem ?_
    intro a b ha hb hle
    obtain ⟨hca, hsa, _, _⟩ := hfact a (List.mem_of_mem_take ha)
    obtain ⟨hcb, hsb, _, _⟩ := hfact b (List.mem_of_mem_take hb)
    rw [hca, hcb, hsa, hsb]
    exact hle
  · intro r hr
    rw [rrfMerge] at hr
    rcases List.mem_map.mp hr with ⟨t, htt, rfl⟩
    obtain ⟨hcid, _, hmem, hmax⟩ := hfact t (List.mem_of_mem_take htt)
    constructor
    · exact List.mem_flatten.mp hmem
    · intro lst hlst r2 hr2 hch
      exact hmax r2 (List.mem_flatten.mpr ⟨lst, hlst, hr2⟩) (by rw [hch, hcid])
